import Mathlib

/-!
Verification development for the nfs-subdir-external-provisioner core
(`cmd/nfs-subdir-external-provisioner/provisioner.go`).

Strings are modelled as `List Char` (`Str`).  The Go standard-library
functions the provisioner calls (`path/filepath.Clean/Dir/Base/Join`,
`strings.Replace/ReplaceAll/Join`, `strconv.ParseBool`, the regexp used by
`stringParser`) are embedded below, translated from their documented
Unix-path semantics.  The filesystem the provisioner mutates through the
`os` package is modelled as a finite set of existing directories, each
named by its cleaned absolute-path segment list; `time.Now()` is threaded
through the delete path as an explicit timestamp-string parameter.
-/

/-- Strings as character lists. -/
abbrev Str := List Char

/-- Turn a Lean string literal into the `Str` model type. -/
def strLit (s : String) : Str := s.data

/-- Split a string at every `/`, keeping empty chunks (Go's
`strings.Split(s, "/")` behaviour, which path cleaning consumes). -/
def splitSlash : Str → List Str
  | [] => [[]]
  | c :: rest =>
    match splitSlash rest with
    | [] => [[c]]
    | s :: ss => if c = '/' then [] :: s :: ss else (c :: s) :: ss

/-- Join chunks with the separator character `sep` between them. -/
def joinSep (sep : Char) : List Str → Str
  | [] => []
  | [s] => s
  | s :: rest => s ++ sep :: joinSep sep rest

/-- Join path segments with `/`. -/
def joinSlash : List Str → Str := joinSep '/'

/-- Join name segments with `.` (used by the archive-path construction). -/
def joinDot : List Str → Str := joinSep '.'

/-- Stack-based processing of path components, as in Go `filepath.Clean`:
empty and `.` components are dropped, `..` pops the last kept component
(dropped at the root of a rooted path, kept at the front of a relative
one), anything else is kept. -/
def cleanGo (rooted : Bool) : List Str → List Str → List Str
  | stack, [] => stack.reverse
  | stack, s :: rest =>
    if s = [] ∨ s = ['.'] then cleanGo rooted stack rest
    else if s = ['.', '.'] then
      match stack with
      | t :: st =>
        if t = ['.', '.'] then cleanGo rooted (['.', '.'] :: t :: st) rest
        else cleanGo rooted st rest
      | [] => if rooted then cleanGo rooted [] rest else cleanGo rooted [['.', '.']] rest
    else cleanGo rooted (s :: stack) rest

/-- Go `filepath.Clean` for Unix paths. -/
def filepathClean (p : Str) : Str :=
  if p = [] then ['.']
  else if p.head? = some '/' then '/' :: joinSlash (cleanGo true [] (splitSlash p))
  else
    let segs := cleanGo false [] (splitSlash p)
    if segs = [] then ['.'] else joinSlash segs

/-- Everything up to and including the last `/` of `p` (empty when `p` has
no slash); the prefix Go `filepath.Dir` cleans. -/
def takeToLastSlash (p : Str) : Str :=
  (p.reverse.dropWhile (fun c => c != '/')).reverse

/-- Go `filepath.Dir`: the cleaned prefix of `p` up to its last slash. -/
def filepathDir (p : Str) : Str := filepathClean (takeToLastSlash p)

/-- Go `filepath.Base`: the last element of the path after trailing
slashes are removed. -/
def filepathBase (p : Str) : Str :=
  if p = [] then ['.']
  else
    let q := p.reverse.dropWhile (fun c => c == '/')
    if q = [] then ['/'] else (q.takeWhile (fun c => c != '/')).reverse

/-- Go `filepath.Join` of two elements: empty elements are skipped and the
`/`-joined rest is cleaned. -/
def filepathJoin (a b : Str) : Str :=
  if a = [] then (if b = [] then [] else filepathClean b)
  else filepathClean (a ++ '/' :: b)

/-- Mount-root constant of the provisioner (`mountPath`). -/
def mountPath : Str := strLit "/persistentvolumes/"

/-- Archive-namespace constant of the provisioner (`archiveSubPath`). -/
def archiveSubPath : Str := strLit "_archived_"

/-- One step of Go `strings.Replace(s, old, new, 1)` for nonempty `old`:
replace the leftmost occurrence of `old`, if any. -/
def replaceOnceGo (old new : Str) : Str → Str
  | [] => []
  | c :: rest =>
    if old <+: (c :: rest) then new ++ (c :: rest).drop old.length
    else c :: replaceOnceGo old new rest

/-- Go `strings.Replace(s, old, new, 1)` (with Go's empty-`old`
behaviour: insert `new` before the first character). -/
def stringsReplaceOnce (s old new : Str) : Str :=
  if old = [] then new ++ s else replaceOnceGo old new s

/-- Helper for Go `strings.ReplaceAll` with empty `old`: `new` is
inserted after every character. -/
def interAll (new : Str) : Str → Str
  | [] => []
  | c :: r => c :: (new ++ interAll new r)

/-- Worker for `strings.ReplaceAll` with a nonempty pattern: replace every
non-overlapping occurrence, scanning left to right.  The `Nat` argument is
recursion fuel; any fuel at least the length of the scanned string gives
the function's real value (`replaceAllGo_fuel`). -/
def replaceAllGo (old new : Str) : Nat → Str → Str
  | 0, s => s
  | fuel + 1, s =>
    match s with
    | [] => []
    | c :: rest =>
      if old <+: (c :: rest) then
        new ++ replaceAllGo old new fuel ((c :: rest).drop old.length)
      else c :: replaceAllGo old new fuel rest

/-- Go `strings.ReplaceAll(s, old, new)`. -/
def stringsReplaceAll (s old new : Str) : Str :=
  match old with
  | [] => new ++ interAll new s
  | o :: os => replaceAllGo (o :: os) new s.length s

/-- Go `strconv.ParseBool`, with the parse failure surfaced as `none`. -/
def strconvParseBool (s : Str) : Option Bool :=
  if s ∈ [strLit "1", strLit "t", strLit "T", strLit "true", strLit "TRUE", strLit "True"] then some true
  else if s ∈ [strLit "0", strLit "f", strLit "F", strLit "false", strLit "FALSE", strLit "False"] then some false
  else none

example : filepathClean (strLit "/a/../b/") = strLit "/b" := by decide
example : filepathClean (strLit "/persistentvolumes/") = strLit "/persistentvolumes" := by decide
example : filepathClean [] = strLit "." := by decide
example : filepathClean (strLit "a/b/..") = strLit "a" := by decide
example : filepathClean (strLit "//") = strLit "/" := by decide
example : filepathClean (strLit "/..") = strLit "/" := by decide
example : filepathClean (strLit "../../x") = strLit "../../x" := by decide
example : filepathDir (strLit "/persistentvolumes/a/b") = strLit "/persistentvolumes/a" := by decide
example : filepathDir (strLit "/a") = strLit "/" := by decide
example : filepathDir (strLit "a") = strLit "." := by decide
example : filepathDir (strLit "/persistentvolumes//x") = strLit "/persistentvolumes" := by decide
example : filepathBase (strLit "/a/b") = strLit "b" := by decide
example : filepathBase (strLit "///") = strLit "/" := by decide
example : filepathJoin mountPath (strLit "ns-x-y") = strLit "/persistentvolumes/ns-x-y" := by decide
example : filepathJoin mountPath (strLit ".") = strLit "/persistentvolumes" := by decide
example : stringsReplaceOnce (strLit "/export/a/b") (strLit "/export") mountPath = strLit "/persistentvolumes//a/b" := by decide
example : stringsReplaceOnce (strLit "/x/export/a") (strLit "export") (strLit "E") = strLit "/x/E/a" := by decide
example : stringsReplaceAll (strLit "abcabc") (strLit "bc") (strLit "Z") = strLit "aZaZ" := by decide
example : strconvParseBool (strLit "False") = some false := by decide
example : strconvParseBool (strLit "no") = none := by decide

/-- String-to-string parameter maps (Kubernetes object metadata and
storage-class parameters), as association lists. -/
abbrev Params := List (Str × Str)

/-- First binding of `key`, if any (Go's comma-ok map read). -/
def lookupP : Params → Str → Option Str
  | [], _ => none
  | (k, v) :: rest, key => if k = key then some v else lookupP rest key

/-- Map read defaulting to the empty string (Go's plain map read). -/
def lookupD (ps : Params) (key : Str) : Str := (lookupP ps key).getD []

/-- The `pvcMetadata` record consulted by `stringParser`. -/
structure PvcMetadata where
  data : Params
  labels : Params
  annotations : Params

/-- The literal prefix of every placeholder the provisioner's regexp
recognizes. -/
def phPrefix : Str := strLit "$\x7b.PVC."

/-- Scan for the closing brace of a placeholder: the shortest chunk up to
a brace, failing on a newline first (the regexp's lazy dot crosses any
character but a newline).  Returns the key and the text after the brace. -/
def takeKey : Str → Option (Str × Str)
  | [] => none
  | c :: rest =>
    if c = '}' then some ([], rest)
    else if c = '\n' then none
    else
      match takeKey rest with
      | none => none
      | some (k, r) => some (c :: k, r)

/-- One submatch record of the regexp, mirroring Go's `r[0]..r[3]`
(an unmatched group is the empty string). -/
structure RMatch where
  r0 : Str
  r1 : Str
  r2 : Str
  r3 : Str
deriving DecidableEq

/-- Literal `labels.` prefix. -/
def labelsDot : Str := strLit "labels."

/-- Literal `annotations.` prefix. -/
def annotationsDot : Str := strLit "annotations."

/-- Build the submatch record for a placeholder whose inner text (group 1)
is `key`, following the alternation `(labels|annotations)\.(.*?)|.*?`. -/
def mkMatch (key : Str) : RMatch :=
  if labelsDot <+: key then
    ⟨phPrefix ++ key ++ ['}'], key, strLit "labels", key.drop labelsDot.length⟩
  else if annotationsDot <+: key then
    ⟨phPrefix ++ key ++ ['}'], key, strLit "annotations", key.drop annotationsDot.length⟩
  else ⟨phPrefix ++ key ++ ['}'], key, [], []⟩

/-- Leftmost-first scan for all non-overlapping matches of the
placeholder regexp, mirroring `pattern.FindAllStringSubmatch(str, -1)`.
Fuel-recursive; any fuel at least the string's length is enough. -/
def findMatchesGo : Nat → Str → List RMatch
  | 0, _ => []
  | fuel + 1, s =>
    match s with
    | [] => []
    | c :: rest =>
      if phPrefix <+: (c :: rest) then
        match takeKey ((c :: rest).drop phPrefix.length) with
        | some (key, after) => mkMatch key :: findMatchesGo fuel after
        | none => findMatchesGo fuel rest
      else findMatchesGo fuel rest

/-- All matches of the placeholder regexp in `s`. -/
def findMatches (s : Str) : List RMatch := findMatchesGo s.length s

/-- The provisioner's `stringParser`: find all placeholder matches of the
original string, then fold over them replacing all occurrences of each
match's full text by the looked-up metadata value. -/
def stringParser (meta : PvcMetadata) (str : Str) : Str :=
  (findMatches str).foldl
    (fun acc m =>
      if m.r2 = strLit "labels" then stringsReplaceAll acc m.r0 (lookupD meta.labels m.r3)
      else if m.r2 = strLit "annotations" then stringsReplaceAll acc m.r0 (lookupD meta.annotations m.r3)
      else stringsReplaceAll acc m.r0 (lookupD meta.data m.r1))
    str

/-- Errors surfaced by the modelled provisioner and its OS calls. -/
inductive Err where
  | selectorUnsupported
  | mkdirFail (p : Str)
  | chmodFail (p : Str)
  | removeFail (p : Str)
  | removeAllFail (p : Str)
  | renameFail (src dst : Str)
  | parseBoolFail (s : Str)
  | classLookup (msg : Str)
deriving DecidableEq

/-- The filesystem under the provisioner's mount, as the set of existing
directories named by cleaned absolute segment lists (the root `/` is the
empty list and always exists).  `mkdirDenied` and `chmodDenied` model
paths on which the respective OS call fails (for example NFS
root-squash): the Go code only observes the error value, not its cause. -/
structure Fs where
  dirs : List (List Str)
  mkdirDenied : List (List Str)
  chmodDenied : List (List Str)
deriving DecidableEq

/-- Resolve a path string the way the OS does: absolute paths resolve to
their cleaned segment list; relative paths are not resolved by the model
(the provisioner's working directory is outside the spec). -/
def resolvePath (p : Str) : Option (List Str) :=
  if p.head? = some '/' then some (cleanGo true [] (splitSlash p)) else none

/-- The `os.Stat`-existence check `Delete` performs. -/
def statExists (fs : Fs) (p : Str) : Bool :=
  match resolvePath p with
  | none => false
  | some segs => if segs = [] ∨ segs ∈ fs.dirs then true else false

/-- `os.Remove`: fails on unresolvable paths, on the filesystem root, on
missing directories and on non-empty ones. -/
def fsRemove (fs : Fs) (p : Str) : Except Err Fs :=
  match resolvePath p with
  | none => .error (.removeFail p)
  | some segs =>
    if segs = [] then .error (.removeFail p)
    else if segs ∈ fs.dirs ∧ ¬ ∃ q ∈ fs.dirs, segs <+: q ∧ segs ≠ q then
      .ok { fs with dirs := fs.dirs.filter (fun q => q ≠ segs) }
    else .error (.removeFail p)

/-- `os.RemoveAll`: removes the directory and everything below it;
succeeds also when nothing exists there. -/
def fsRemoveAll (fs : Fs) (p : Str) : Except Err Fs :=
  match resolvePath p with
  | none => .error (.removeAllFail p)
  | some segs =>
    .ok { fs with dirs := fs.dirs.filter (fun q => ¬ segs <+: q) }

/-- The prefixes (ancestor paths) of a segment list, shortest first. -/
def prefixesOf (segs : List Str) : List (List Str) :=
  (List.range (segs.length + 1)).map (fun i => segs.take i)

/-- `os.MkdirAll`: creates the directory and all missing ancestors;
fails on the paths the model marks denied. -/
def fsMkdirAll (fs : Fs) (p : Str) : Except Err Fs :=
  match resolvePath p with
  | none => .error (.mkdirFail p)
  | some segs =>
    if segs ∈ fs.mkdirDenied then .error (.mkdirFail p)
    else .ok { fs with dirs := fs.dirs ++ (prefixesOf segs).filter (fun q => q ≠ [] ∧ q ∉ fs.dirs) }

/-- `os.Chmod`: fails on missing paths and on the paths the model marks
denied; the mode itself is not tracked. -/
def fsChmod (fs : Fs) (p : Str) : Except Err Fs :=
  match resolvePath p with
  | none => .error (.chmodFail p)
  | some segs =>
    if segs ∈ fs.chmodDenied then .error (.chmodFail p)
    else if segs = [] ∨ segs ∈ fs.dirs then .ok fs
    else .error (.chmodFail p)

/-- `os.Rename` of a directory: the source must exist, the destination
must not, and the destination's parent must exist; the whole subtree
moves. -/
def fsRename (fs : Fs) (src dst : Str) : Except Err Fs :=
  match resolvePath src, resolvePath dst with
  | some s, some d =>
    if s = [] ∨ d = [] then .error (.renameFail src dst)
    else if s ∈ fs.dirs ∧ d ∉ fs.dirs ∧ (d.dropLast = [] ∨ d.dropLast ∈ fs.dirs) then
      .ok { fs with dirs :=
        fs.dirs.filter (fun q => ¬ s <+: q) ++
          (fs.dirs.filter (fun q => s <+: q)).map (fun q => d ++ q.drop s.length) }
    else .error (.renameFail src dst)
  | _, _ => .error (.renameFail src dst)

deriving instance DecidableEq for Except

/-- The provisioner's read-only configuration (`nfsProvisioner` minus the
management-plane client, whose lookup outcome `deleteVolume` takes as a
parameter). -/
structure NfsProvisioner where
  server : Str
  path : Str

/-- The inputs `Provision` reads from `controller.ProvisionOptions`:
selector presence, claim namespace and name, the generated PV name,
claim labels and annotations, and the storage-class parameters. -/
structure ProvisionOptions where
  hasSelector : Bool
  pvcNamespace : Str
  pvcName : Str
  pvName : Str
  labels : Params
  annotations : Params
  classParams : Params

/-- The slice of the returned `v1.PersistentVolume` the core computes:
the NFS server and export-facing path. -/
structure PersistentVolumeModel where
  server : Str
  path : Str
deriving DecidableEq

/-- A `Provision` outcome: the optional volume, the
`controller.ProvisioningState` string, the optional error and the
filesystem after the call. -/
structure ProvisionResult where
  pv : Option PersistentVolumeModel
  state : Str
  err : Option Err
  fs : Fs
deriving DecidableEq

/-- The `controller.ProvisioningFinished` state string. -/
def provisioningFinished : Str := strLit "Finished"

/-- The path pair (mount-side `fullPath`, export-side `path`) `Provision`
resolves: the default `namespace-name-pvName` joined under each root,
overridden by a non-empty rendering of the `pathPattern` class
parameter. -/
def provisionPaths (p : NfsProvisioner) (o : ProvisionOptions) : Str × Str :=
  let pvName := o.pvcNamespace ++ '-' :: o.pvcName ++ '-' :: o.pvName
  let md : PvcMetadata :=
    ⟨[(strLit "name", o.pvcName), (strLit "namespace", o.pvcNamespace), (strLit "pvname", o.pvName)],
      o.labels, o.annotations⟩
  let fullPath := filepathJoin mountPath pvName
  let path := filepathJoin p.path pvName
  match lookupP o.classParams (strLit "pathPattern") with
  | some pat =>
    let customPath := stringParser md pat
    if customPath ≠ [] then (filepathJoin mountPath customPath, filepathJoin p.path customPath)
    else (fullPath, path)
  | none => (fullPath, path)

/-- The provisioner's `Provision`: reject selectors terminally, resolve
the target paths, create the directory, re-assert permissions, and
return the volume descriptor. -/
def provision (p : NfsProvisioner) (o : ProvisionOptions) (fs : Fs) : ProvisionResult :=
  if o.hasSelector then ⟨none, provisioningFinished, some .selectorUnsupported, fs⟩
  else
    let fullPath := (provisionPaths p o).1
    let path := (provisionPaths p o).2
    match fsMkdirAll fs fullPath with
    | .error e => ⟨none, provisioningFinished, some e, fs⟩
    | .ok fs₁ =>
      match fsChmod fs₁ fullPath with
      | .error e => ⟨none, [], some e, fs₁⟩
      | .ok fs₂ => ⟨some ⟨p.server, path⟩, provisioningFinished, none, fs₂⟩

/-- The recursion of `pruneEmptyParents`, instrumented with the list of
attempted `os.Remove` calls and whether each succeeded.  Fuel-recursive;
`pruneEmptyParents` supplies fuel that the recursion (which only
continues while removals succeed, each removal shortening the path)
cannot exhaust. -/
def pruneGo : Nat → Str → Fs → Fs × List (Str × Bool)
  | 0, _, fs => (fs, [])
  | fuel + 1, p, fs =>
    if filepathClean p = filepathClean mountPath then (fs, [])
    else
      match fsRemove fs p with
      | .ok fs' =>
        let r := pruneGo fuel (filepathDir p) fs'
        (r.1, (p, true) :: r.2)
      | .error _ => (fs, [(p, false)])

/-- The provisioner's `pruneEmptyParents`: repeatedly remove the current
directory and walk to its parent, stopping at the mount root or at the
first failing removal. -/
def pruneEmptyParents (p : Str) (fs : Fs) : Fs × List (Str × Bool) :=
  pruneGo (p.length + 2) p fs

/-- The provisioner's `deleteAndPruneEmptyParents`: recursive removal
followed by best-effort pruning of empty ancestors. -/
def deleteAndPruneEmptyParents (p : Str) (fs : Fs) : Except Err Fs :=
  match fsRemoveAll fs p with
  | .error e => .error e
  | .ok fs₁ => .ok (pruneEmptyParents (filepathDir p) fs₁).1

/-- The provisioner's `buildArchivePath` with `time.Now()` threaded in as
the already-formatted minute-granularity timestamp `now`, and fuel making
the partial recursion total: `none` means the real recursion on
`filepath.Dir` never reaches the cleaned mount root (it diverges). -/
def buildArchivePath : Nat → Str → Str → Option Str
  | 0, _, _ => none
  | fuel + 1, now, path =>
    if filepathClean path = filepathClean mountPath then some (archiveSubPath ++ '/' :: now)
    else
      match buildArchivePath fuel now (filepathDir path) with
      | none => none
      | some r => some (r ++ '.' :: filepathBase path)

/-- The archive branch of `Delete`: compute the archive path, ensure the
archive directory exists (ignoring a creation failure), rename,
and prune the old parents on success.  `none` when `buildArchivePath`
diverges. -/
def archiveAndPrune (now oldPath : Str) (fs : Fs) : Option (Except Err Fs) :=
  match buildArchivePath (oldPath.length + 1) now oldPath with
  | none => none
  | some rel =>
    let archivePath := filepathJoin mountPath rel
    let archiveDir := filepathJoin mountPath archiveSubPath
    let fs₁ :=
      if statExists fs archiveDir then fs
      else match fsMkdirAll fs archiveDir with
        | .ok f => f
        | .error _ => fs
    match fsRename fs₁ oldPath archivePath with
    | .ok fs₂ => some (.ok (pruneEmptyParents (filepathDir oldPath) fs₂).1)
    | .error e => some (.error e)

/-- The provisioner's `Delete`.  `classRes` is the outcome of
`getClassForVolume` (a management-plane call outside the core),
`volumePath` the volume descriptor's NFS path, `now` the formatted
timestamp.  `none` models the divergence of `buildArchivePath` on paths
whose parent walk never reaches the mount root. -/
def deleteVolume (p : NfsProvisioner) (classRes : Except Err Params) (now volumePath : Str)
    (fs : Fs) : Option (Except Err Fs) :=
  let oldPath := stringsReplaceOnce volumePath p.path mountPath
  if statExists fs oldPath = false then some (.ok fs)
  else
    match classRes with
    | .error e => some (.error e)
    | .ok params =>
      let onDelete := lookupD params (strLit "onDelete")
      if onDelete = strLit "delete" then some (deleteAndPruneEmptyParents oldPath fs)
      else if onDelete = strLit "retain" then some (.ok fs)
      else
        match lookupP params (strLit "archiveOnDelete") with
        | some v =>
          match strconvParseBool v with
          | none => some (.error (.parseBoolFail v))
          | some b =>
            if b = false then some (deleteAndPruneEmptyParents oldPath fs)
            else archiveAndPrune now oldPath fs
        | none => archiveAndPrune now oldPath fs

/-- A path segment as produced by a clean path strictly under the mount
root: nonempty, slash-free, and not a dot component. -/
def validSeg (s : Str) : Prop := s ≠ [] ∧ '/' ∉ s ∧ s ≠ ['.'] ∧ s ≠ ['.', '.']

instance : DecidablePred validSeg := fun s => by unfold validSeg; infer_instance

/-- A local path strictly under the mount root, in cleaned form: the
mount root followed by one or more valid segments. -/
def underPath (segs : List Str) : Str := mountPath ++ joinSlash segs

/-- The cleaned mount root. -/
def mountRootClean : Str := strLit "/persistentvolumes"

theorem splitSlash_ne_nil (s : Str) : splitSlash s ≠ [] := by
  cases s with
  | nil => simp [splitSlash]
  | cons c rest =>
    simp only [splitSlash]
    cases splitSlash rest with
    | nil => simp
    | cons x xs => by_cases hc : c = '/' <;> simp [hc]

theorem splitSlash_cons_slash (s : Str) : splitSlash ('/' :: s) = [] :: splitSlash s := by
  simp only [splitSlash]
  cases h : splitSlash s with
  | nil => exact absurd h (splitSlash_ne_nil s)
  | cons x xs => simp

theorem splitSlash_cons_ne (c : Char) (s : Str) (hc : c ≠ '/') :
    splitSlash (c :: s) = (c :: (splitSlash s).headI) :: (splitSlash s).tail := by
  simp only [splitSlash]
  cases h : splitSlash s with
  | nil => exact absurd h (splitSlash_ne_nil s)
  | cons x xs => simp [hc]

theorem splitSlash_append_slash (a u : Str) :
    splitSlash (a ++ '/' :: u) = splitSlash a ++ splitSlash u := by
  induction a with
  | nil =>
    rw [List.nil_append, splitSlash_cons_slash]
    rfl
  | cons c a ih =>
    by_cases hc : c = '/'
    · subst hc
      rw [List.cons_append, splitSlash_cons_slash, splitSlash_cons_slash, ih, List.cons_append]
    · rw [List.cons_append, splitSlash_cons_ne c _ hc, splitSlash_cons_ne c _ hc, ih]
      obtain ⟨x, xs, hx⟩ := List.exists_cons_of_ne_nil (splitSlash_ne_nil a)
      simp [hx]

theorem splitSlash_no_slash (s : Str) (h : '/' ∉ s) : splitSlash s = [s] := by
  induction s with
  | nil => simp [splitSlash]
  | cons c rest ih =>
    have hc : c ≠ '/' := fun hh => h (hh ▸ List.mem_cons_self c rest)
    rw [splitSlash_cons_ne c rest hc, ih (fun hm => h (List.mem_cons_of_mem c hm))]
    simp

theorem mem_splitSlash_no_slash (s : Str) : ∀ x ∈ splitSlash s, '/' ∉ x := by
  induction s with
  | nil =>
    intro x hx
    have hx' : x = [] := by simpa [splitSlash] using hx
    simp [hx']
  | cons c rest ih =>
    intro x hx
    by_cases hc : c = '/'
    · subst hc
      rw [splitSlash_cons_slash] at hx
      rcases List.mem_cons.mp hx with h | h
      · simp [h]
      · exact ih x h
    · rw [splitSlash_cons_ne c rest hc] at hx
      obtain ⟨y, ys, hy⟩ := List.exists_cons_of_ne_nil (splitSlash_ne_nil rest)
      rw [hy] at hx
      simp only [List.headI, List.tail_cons] at hx
      rcases List.mem_cons.mp hx with h | h
      · subst h
        intro hm
        rcases List.mem_cons.mp hm with h1 | h1
        · exact hc h1.symm
        · exact ih y (by rw [hy]; exact List.mem_cons_self y ys) h1
      · exact ih x (by rw [hy]; exact List.mem_cons_of_mem y h)

theorem joinSep_cons (sep : Char) (s : Str) (rest : List Str) (h : rest ≠ []) :
    joinSep sep (s :: rest) = s ++ sep :: joinSep sep rest := by
  obtain ⟨x, xs, hx⟩ := List.exists_cons_of_ne_nil h
  subst hx
  rfl

theorem joinSep_append_singleton (sep : Char) (l : List Str) (x : Str) :
    joinSep sep (l ++ [x]) = if l = [] then x else joinSep sep l ++ sep :: x := by
  induction l with
  | nil => simp [joinSep]
  | cons s l ih =>
    rw [List.cons_append, joinSep_cons sep s (l ++ [x]) (by simp), ih]
    by_cases hl : l = []
    · simp [hl, joinSep]
    · simp [hl, joinSep_cons sep s l hl]

theorem splitSlash_joinSlash (l : List Str) (hne : l ≠ []) (h : ∀ s ∈ l, '/' ∉ s) :
    splitSlash (joinSlash l) = l := by
  induction l with
  | nil => exact absurd rfl hne
  | cons s rest ih =>
    by_cases hr : rest = []
    · subst hr
      exact splitSlash_no_slash s (h s (by simp))
    · rw [joinSlash, joinSep_cons '/' s rest hr, splitSlash_append_slash,
        splitSlash_no_slash s (h s (by simp))]
      rw [joinSlash] at ih
      rw [ih hr (fun t ht => h t (List.mem_cons_of_mem s ht))]
      simp

theorem joinSlash_ne_nil (l : List Str) (hne : l ≠ []) (h : ∀ s ∈ l, s ≠ []) :
    joinSlash l ≠ [] := by
  cases l with
  | nil => exact absurd rfl hne
  | cons s rest =>
    cases rest with
    | nil => exact h s (by simp)
    | cons t ts =>
      rw [joinSlash, joinSep_cons '/' s (t :: ts) (by simp)]
      rcases s with _ | ⟨c, cs⟩
      · simp
      · simp

/-- Nonempty non-dot segment property used by path cleaning. -/
def plainSeg (s : Str) : Prop := s ≠ [] ∧ s ≠ ['.'] ∧ s ≠ ['.', '.']

theorem validSeg.plain {s : Str} (h : validSeg s) : plainSeg s := ⟨h.1, h.2.2.1, h.2.2.2⟩

theorem cleanGo_nil (r : Bool) (st : List Str) : cleanGo r st [] = st.reverse := rfl

theorem cleanGo_cons (r : Bool) (st : List Str) (s : Str) (l : List Str) :
    cleanGo r st (s :: l) =
      if s = [] ∨ s = ['.'] then cleanGo r st l
      else if s = ['.', '.'] then
        (match st with
         | t :: st' => if t = ['.', '.'] then cleanGo r (['.', '.'] :: t :: st') l else cleanGo r st' l
         | [] => if r then cleanGo r [] l else cleanGo r [['.', '.']] l)
      else cleanGo r (s :: st) l := rfl

theorem cleanGo_append_plains (r : Bool) (l m : List Str) :
    ∀ st : List Str, (∀ s ∈ l, plainSeg s) → cleanGo r st (l ++ m) = cleanGo r (l.reverse ++ st) m := by
  induction l with
  | nil => intro st _; simp
  | cons s l ih =>
    intro st h
    have hs : plainSeg s := h s (by simp)
    rw [List.cons_append, cleanGo_cons]
    rw [if_neg (by simp [hs.1, hs.2.1]), if_neg hs.2.2]
    rw [ih (s :: st) (fun t ht => h t (List.mem_cons_of_mem s ht))]
    simp

theorem cleanGo_plains (r : Bool) (l : List Str) (st : List Str) (h : ∀ s ∈ l, plainSeg s) :
    cleanGo r st l = st.reverse ++ l := by
  have := cleanGo_append_plains r l [] st h
  simpa [cleanGo_nil] using this

theorem mountPath_eq : mountPath = '/' :: (strLit "persistentvolumes" ++ '/' :: []) := by decide

theorem underPath_eq (segs : List Str) :
    underPath segs = '/' :: (strLit "persistentvolumes" ++ '/' :: joinSlash segs) := by
  rw [underPath, mountPath_eq]
  simp

theorem splitSlash_underPath (segs : List Str) (hne : segs ≠ []) (h : ∀ s ∈ segs, validSeg s) :
    splitSlash (underPath segs) = [] :: strLit "persistentvolumes" :: segs := by
  rw [underPath_eq, splitSlash_cons_slash, splitSlash_append_slash,
    splitSlash_no_slash (strLit "persistentvolumes") (by decide),
    splitSlash_joinSlash segs hne (fun s hs => (h s hs).2.1)]
  simp

theorem filepathClean_underPath (segs : List Str) (hne : segs ≠ []) (h : ∀ s ∈ segs, validSeg s) :
    filepathClean (underPath segs) = underPath segs := by
  have hhead : (underPath segs).head? = some '/' := by rw [underPath_eq]; rfl
  have hnil : underPath segs ≠ [] := by rw [underPath_eq]; simp
  rw [filepathClean, if_neg hnil, if_pos hhead, splitSlash_underPath segs hne h]
  rw [show cleanGo true [] ([] :: strLit "persistentvolumes" :: segs)
      = cleanGo true [] (strLit "persistentvolumes" :: segs) by rw [cleanGo_cons]; simp]
  rw [cleanGo_plains true _ [] (by
    intro s hs
    rcases List.mem_cons.mp hs with h1 | h1
    · subst h1; exact ⟨by decide, by decide, by decide⟩
    · exact (h s h1).plain)]
  rw [List.reverse_nil, List.nil_append, joinSlash, joinSep_cons '/' _ segs hne, underPath_eq]
  simp [joinSlash]

theorem clean_mountPath : filepathClean mountPath = mountRootClean := by decide

theorem clean_mountRootClean : filepathClean mountRootClean = mountRootClean := by decide

theorem dropUntilSlash (l m : List Char) (h : ∀ c ∈ l, c ≠ '/') :
    (l ++ '/' :: m).dropWhile (fun c => c != '/') = '/' :: m := by
  induction l with
  | nil => simp [List.dropWhile_cons]
  | cons c t ih =>
    have hc : c ≠ '/' := h c (by simp)
    rw [List.cons_append, List.dropWhile_cons, if_pos (by simp [hc])]
    exact ih (fun d hd => h d (List.mem_cons_of_mem c hd))

theorem takeUntilSlash (l m : List Char) (h : ∀ c ∈ l, c ≠ '/') :
    (l ++ '/' :: m).takeWhile (fun c => c != '/') = l := by
  induction l with
  | nil => simp [List.takeWhile_cons]
  | cons c t ih =>
    have hc : c ≠ '/' := h c (by simp)
    rw [List.cons_append, List.takeWhile_cons, if_pos (by simp [hc])]
    rw [ih (fun d hd => h d (List.mem_cons_of_mem c hd))]

theorem takeToLastSlash_append (a x : Str) (hx : '/' ∉ x) :
    takeToLastSlash (a ++ '/' :: x) = a ++ ['/'] := by
  unfold takeToLastSlash
  have hrev : (a ++ '/' :: x).reverse = x.reverse ++ '/' :: a.reverse := by simp
  rw [hrev, dropUntilSlash x.reverse a.reverse
    (fun c hc hc' => hx (hc' ▸ List.mem_reverse.mp hc))]
  simp

theorem filepathBase_append (a x : Str) (hx : '/' ∉ x) (hne : x ≠ []) :
    filepathBase (a ++ '/' :: x) = x := by
  have hrev : (a ++ '/' :: x).reverse = x.reverse ++ '/' :: a.reverse := by simp
  rw [filepathBase, if_neg (by simp)]
  have hnr : x.reverse ≠ [] := by simpa using hne
  obtain ⟨c, t, hct⟩ := List.exists_cons_of_ne_nil hnr
  have hc : c ≠ '/' := fun hcc => hx (hcc ▸ List.mem_reverse.mp (hct ▸ List.mem_cons_self c t))
  have hdrop : (a ++ '/' :: x).reverse.dropWhile (fun c => c == '/') = x.reverse ++ '/' :: a.reverse := by
    rw [hrev, hct, List.cons_append, List.dropWhile_cons, if_neg (by simp [hc])]
  simp only [hdrop]
  rw [if_neg (by simp), takeUntilSlash x.reverse a.reverse
    (fun d hd hd' => hx (hd' ▸ List.mem_reverse.mp hd))]
  simp

theorem filepathClean_underPath_slash (segs : List Str) (hne : segs ≠ [])
    (h : ∀ s ∈ segs, validSeg s) :
    filepathClean (underPath segs ++ ['/']) = underPath segs := by
  have hhead : (underPath segs ++ ['/']).head? = some '/' := by rw [underPath_eq]; rfl
  have hnil : underPath segs ++ ['/'] ≠ [] := by simp
  rw [filepathClean, if_neg hnil, if_pos hhead]
  rw [show underPath segs ++ ['/'] = underPath segs ++ '/' :: [] from rfl,
    splitSlash_append_slash, splitSlash_underPath segs hne h]
  have hplains : ∀ s ∈ strLit "persistentvolumes" :: segs, plainSeg s := by
    intro s hs
    rcases List.mem_cons.mp hs with h1 | h1
    · subst h1; exact ⟨by decide, by decide, by decide⟩
    · exact (h s h1).plain
  rw [show ([] :: strLit "persistentvolumes" :: segs) ++ splitSlash []
      = [] :: ((strLit "persistentvolumes" :: segs) ++ [[]]) by simp [splitSlash]]
  rw [show cleanGo true [] ([] :: ((strLit "persistentvolumes" :: segs) ++ [[]]))
      = cleanGo true [] ((strLit "persistentvolumes" :: segs) ++ [[]]) by rw [cleanGo_cons]; simp]
  rw [cleanGo_append_plains true _ _ [] hplains]
  rw [show cleanGo true ((strLit "persistentvolumes" :: segs).reverse ++ []) [[]]
      = cleanGo true ((strLit "persistentvolumes" :: segs).reverse ++ []) [] by rw [cleanGo_cons]; simp]
  rw [cleanGo_nil]
  rw [List.append_nil, List.reverse_reverse, joinSlash, joinSep_cons '/' _ segs hne, underPath_eq]
  simp [joinSlash]

theorem filepathDir_underPath (segs : List Str) (x : Str)
    (h : ∀ s ∈ segs, validSeg s) (hx : validSeg x) :
    filepathDir (underPath (segs ++ [x])) = if segs = [] then mountRootClean else underPath segs := by
  by_cases hl : segs = []
  · subst hl
    simp only [List.nil_append, if_pos rfl]
    have h1 : underPath [x] = strLit "/persistentvolumes" ++ '/' :: x := by
      rw [underPath_eq, show strLit "/persistentvolumes" = '/' :: strLit "persistentvolumes" from by decide]
      simp [joinSlash, joinSep]
    rw [filepathDir, h1, takeToLastSlash_append _ x hx.2.1]
    rw [show strLit "/persistentvolumes" ++ ['/'] = mountPath by decide]
    exact clean_mountPath
  · rw [if_neg hl]
    have h1 : underPath (segs ++ [x]) = underPath segs ++ '/' :: x := by
      rw [underPath, underPath, joinSlash, joinSep_append_singleton, if_neg hl]
      simp [joinSlash]
    rw [filepathDir, h1, takeToLastSlash_append _ x hx.2.1]
    exact filepathClean_underPath_slash segs hl h

theorem filepathBase_underPath (segs : List Str) (x : Str) (hx : validSeg x) :
    filepathBase (underPath (segs ++ [x])) = x := by
  by_cases hl : segs = []
  · subst hl
    have h1 : underPath [x] = strLit "/persistentvolumes" ++ '/' :: x := by
      rw [underPath_eq, show strLit "/persistentvolumes" = '/' :: strLit "persistentvolumes" from by decide]
      simp [joinSlash, joinSep]
    simp only [List.nil_append]
    rw [h1, filepathBase_append _ x hx.2.1 hx.1]
  · have h1 : underPath (segs ++ [x]) = underPath segs ++ '/' :: x := by
      rw [underPath, underPath, joinSlash, joinSep_append_singleton, if_neg hl]
      simp [joinSlash]
    rw [h1, filepathBase_append _ x hx.2.1 hx.1]

theorem joinSlash_length_ge (segs : List Str) (h : ∀ s ∈ segs, s ≠ []) (hne : segs ≠ []) :
    segs.length ≤ (joinSlash segs).length := by
  induction segs with
  | nil => exact absurd rfl hne
  | cons s rest ih =>
    by_cases hr : rest = []
    · subst hr
      have : s ≠ [] := h s (by simp)
      have : 0 < s.length := List.length_pos.mpr this
      simpa [joinSlash, joinSep] using this
    · rw [joinSlash, joinSep_cons '/' s rest hr]
      have h2 := ih (fun t ht => h t (List.mem_cons_of_mem s ht)) hr
      rw [joinSlash] at h2
      have h3 : 0 < s.length := List.length_pos.mpr (h s (by simp))
      simp only [List.length_append, List.length_cons]
      omega

theorem filepathClean_underPath_ne_root (segs : List Str) (hne : segs ≠ [])
    (h : ∀ s ∈ segs, validSeg s) :
    filepathClean (underPath segs) ≠ filepathClean mountPath := by
  rw [filepathClean_underPath segs hne h, clean_mountPath]
  intro heq
  have hlen := congrArg List.length heq
  have hjl : 0 < (joinSlash segs).length :=
    List.length_pos.mpr (joinSlash_ne_nil segs hne (fun s hs => (h s hs).1))
  have hup : (underPath segs).length = mountPath.length + (joinSlash segs).length := by
    simp [underPath]
  have hm : mountPath.length = 19 := by decide
  have hr : mountRootClean.length = 18 := by decide
  omega

theorem buildArchivePath_mono (n : Nat) :
    ∀ now p r, buildArchivePath n now p = some r → buildArchivePath (n + 1) now p = some r := by
  induction n with
  | zero => intro now p r h; simp [buildArchivePath] at h
  | succ n ih =>
    intro now p r h
    rw [buildArchivePath] at h ⊢
    by_cases hg : filepathClean p = filepathClean mountPath
    · rw [if_pos hg] at h ⊢; exact h
    · rw [if_neg hg] at h ⊢
      cases hrec : buildArchivePath n now (filepathDir p) with
      | none => rw [hrec] at h; exact absurd h (by simp)
      | some r' => rw [hrec] at h; rw [ih now (filepathDir p) r' hrec]; exact h

theorem buildArchivePath_le {n m : Nat} (hnm : n ≤ m) :
    ∀ now p r, buildArchivePath n now p = some r → buildArchivePath m now p = some r := by
  induction hnm with
  | refl => intro now p r h; exact h
  | step _ ih =>
    intro now p r h
    exact buildArchivePath_mono _ now p r (ih now p r h)

theorem buildArchivePath_under (now : Str) (segs : List Str) (hne : segs ≠ [])
    (h : ∀ s ∈ segs, validSeg s) :
    buildArchivePath (segs.length + 1) now (underPath segs)
      = some (archiveSubPath ++ '/' :: (now ++ '.' :: joinDot segs)) := by
  induction segs using List.reverseRecOn with
  | nil => exact absurd rfl hne
  | append_singleton l x ih =>
    have hx : validSeg x := h x (by simp)
    have hl : ∀ s ∈ l, validSeg s := fun s hs => h s (by simp [hs])
    rw [show (l ++ [x]).length + 1 = (l.length + 1) + 1 by simp]
    rw [buildArchivePath,
      if_neg (filepathClean_underPath_ne_root (l ++ [x]) (by simp) h),
      filepathDir_underPath l x hl hx, filepathBase_underPath l x hx]
    by_cases hln : l = []
    · subst hln
      rw [if_pos rfl]
      rw [show buildArchivePath (List.length [] + 1) now mountRootClean
          = some (archiveSubPath ++ '/' :: now) by
        rw [buildArchivePath, if_pos (by rw [clean_mountRootClean, clean_mountPath])]]
      simp [joinDot, joinSep]
    · rw [if_neg hln, ih hln hl]
      rw [joinDot, joinSep_append_singleton, if_neg hln]
      simp [joinDot]

theorem joinSep_mem (sep : Char) (l : List Str) :
    ∀ c ∈ joinSep sep l, c = sep ∨ ∃ s ∈ l, c ∈ s := by
  induction l with
  | nil => intro c hc; simp [joinSep] at hc
  | cons s rest ih =>
    intro c hc
    by_cases hr : rest = []
    · subst hr
      exact Or.inr ⟨s, by simp, by simpa [joinSep] using hc⟩
    · rw [joinSep_cons sep s rest hr] at hc
      rcases List.mem_append.mp hc with h | h
      · exact Or.inr ⟨s, by simp, h⟩
      · rcases List.mem_cons.mp h with h1 | h1
        · exact Or.inl h1
        · rcases ih c h1 with h2 | ⟨t, ht, hct⟩
          · exact Or.inl h2
          · exact Or.inr ⟨t, List.mem_cons_of_mem s ht, hct⟩

theorem filepathJoin_mount_archive (comp : Str) (hc : '/' ∉ comp) (hplain : plainSeg comp) :
    filepathJoin mountPath (archiveSubPath ++ '/' :: comp)
      = strLit "/persistentvolumes/_archived_/" ++ comp := by
  rw [filepathJoin, if_neg (by decide)]
  have harg : mountPath ++ '/' :: (archiveSubPath ++ '/' :: comp)
      = '/' :: (strLit "persistentvolumes" ++ '/' :: ([] ++ '/' :: (strLit "_archived_" ++ '/' :: comp))) := by
    rw [mountPath_eq]
    simp [archiveSubPath]
  rw [filepathClean, if_neg (by rw [harg]; simp), if_pos (by rw [harg]; rfl)]
  rw [harg, splitSlash_cons_slash, splitSlash_append_slash, splitSlash_append_slash,
    splitSlash_append_slash,
    splitSlash_no_slash (strLit "persistentvolumes") (by decide),
    splitSlash_no_slash (strLit "_archived_") (by decide),
    splitSlash_no_slash comp hc]
  have h1 : cleanGo true []
      ([] :: ([strLit "persistentvolumes"] ++ (splitSlash [] ++ ([strLit "_archived_"] ++ [comp]))))
      = [strLit "persistentvolumes", strLit "_archived_", comp] := by
    rw [show ([] : Str) :: ([strLit "persistentvolumes"] ++ (splitSlash [] ++ ([strLit "_archived_"] ++ [comp])))
        = [] :: strLit "persistentvolumes" :: [] :: strLit "_archived_" :: [comp] by simp [splitSlash]]
    rw [cleanGo_cons, if_pos (by simp)]
    rw [cleanGo_cons, if_neg (by decide), if_neg (by decide)]
    rw [cleanGo_cons, if_pos (by simp)]
    rw [cleanGo_cons, if_neg (by decide), if_neg (by decide)]
    rw [cleanGo_cons, if_neg (by simp [hplain.1, hplain.2.1]), if_neg hplain.2.2]
    rw [cleanGo_nil]
    rfl
  rw [h1]
  rw [show joinSlash [strLit "persistentvolumes", strLit "_archived_", comp]
      = strLit "persistentvolumes" ++ '/' :: (strLit "_archived_" ++ '/' :: comp) by
    rw [joinSlash, joinSep_cons _ _ _ (by simp), joinSep_cons _ _ _ (by simp)]
    rfl]
  rw [show strLit "/persistentvolumes/_archived_/"
      = '/' :: (strLit "persistentvolumes" ++ '/' :: (strLit "_archived_" ++ ['/'])) from by decide]
  simp

/-- C2.  For a local path strictly under the mount root (the cleaned form
`/persistentvolumes/seg1/.../segN` with valid segments) and a
minute-granularity timestamp (nonempty, no slash or dot), the archive
path is the mount root, the literal `_archived_` segment, a slash, the
timestamp, then every segment from the export root down to the leaf
joined by `.` — as in the spec's example
`/persistentvolumes/_archived_/202405011030.ns1-claim1-pvc-abc`.
The fuel `(underPath segs).length + 1` is the fuel `Delete` itself uses
for this recursion. -/
theorem archive_path_under_root (now : Str) (segs : List Str)
    (hne : segs ≠ []) (hv : ∀ s ∈ segs, validSeg s)
    (hnow : now ≠ []) (hnowc : ∀ c ∈ now, c ≠ '/' ∧ c ≠ '.') :
    buildArchivePath ((underPath segs).length + 1) now (underPath segs)
        = some (archiveSubPath ++ '/' :: (now ++ '.' :: joinDot segs))
      ∧ filepathJoin mountPath (archiveSubPath ++ '/' :: (now ++ '.' :: joinDot segs))
        = strLit "/persistentvolumes/_archived_/" ++ (now ++ '.' :: joinDot segs) := by
  constructor
  · have hle : segs.length + 1 ≤ (underPath segs).length + 1 := by
      have h1 := joinSlash_length_ge segs (fun s hs => (hv s hs).1) hne
      have h2 : (underPath segs).length = mountPath.length + (joinSlash segs).length := by
        simp [underPath]
      have h3 : mountPath.length = 19 := by decide
      omega
    exact buildArchivePath_le hle now _ _ (buildArchivePath_under now segs hne hv)
  · obtain ⟨c, t, hct⟩ := List.exists_cons_of_ne_nil hnow
    have hcdot : c ≠ '.' := (hnowc c (by rw [hct]; simp)).2
    apply filepathJoin_mount_archive
    · intro hmem
      rcases List.mem_append.mp hmem with h | h
      · exact (hnowc _ h).1 rfl
      · rcases List.mem_cons.mp h with h1 | h1
        · exact absurd h1 (by decide)
        · rcases joinSep_mem '.' segs _ h1 with h2 | ⟨s, hs, hcs⟩
          · exact absurd h2 (by decide)
          · exact (hv s hs).2.1 hcs
    · refine ⟨by simp [hnow], ?_, ?_⟩
      · rw [hct]
        intro hh
        injection hh with hh1 _
        exact hcdot hh1
      · rw [hct]
        intro hh
        injection hh with hh1 _
        exact hcdot hh1

/-- Witness for C2: the spec's own example, a single segment
`ns1-claim1-pvc-abc` archived at `2024-05-01T10:30`. -/
theorem archive_path_under_root_witness :
    (buildArchivePath ((underPath [strLit "ns1-claim1-pvc-abc"]).length + 1) (strLit "202405011030")
          (underPath [strLit "ns1-claim1-pvc-abc"])
        = some (archiveSubPath ++ '/' :: (strLit "202405011030" ++ '.' :: joinDot [strLit "ns1-claim1-pvc-abc"]))
      ∧ filepathJoin mountPath
          (archiveSubPath ++ '/' :: (strLit "202405011030" ++ '.' :: joinDot [strLit "ns1-claim1-pvc-abc"]))
        = strLit "/persistentvolumes/_archived_/"
            ++ (strLit "202405011030" ++ '.' :: joinDot [strLit "ns1-claim1-pvc-abc"]))
    ∧ strLit "/persistentvolumes/_archived_/"
          ++ (strLit "202405011030" ++ '.' :: joinDot [strLit "ns1-claim1-pvc-abc"])
        = strLit "/persistentvolumes/_archived_/202405011030.ns1-claim1-pvc-abc" :=
  ⟨archive_path_under_root (strLit "202405011030") [strLit "ns1-claim1-pvc-abc"]
      (by decide) (by decide) (by decide) (by decide),
    by decide⟩

/-- Iterated `filepath.Dir`: the parent walk of `buildArchivePath`. -/
def dirIter : Nat → Str → Str
  | 0, p => p
  | k + 1, p => dirIter k (filepathDir p)

theorem buildArchivePath_isSome_reaches (n : Nat) :
    ∀ now p, (buildArchivePath n now p).isSome = true →
      ∃ k, filepathClean (dirIter k p) = filepathClean mountPath := by
  induction n with
  | zero => intro now p h; simp [buildArchivePath] at h
  | succ n ih =>
    intro now p h
    rw [buildArchivePath] at h
    by_cases hg : filepathClean p = filepathClean mountPath
    · exact ⟨0, hg⟩
    · rw [if_neg hg] at h
      cases hrec : buildArchivePath n now (filepathDir p) with
      | none => rw [hrec] at h; simp at h
      | some r =>
        obtain ⟨k, hk⟩ := ih now (filepathDir p) (by rw [hrec]; rfl)
        exact ⟨k + 1, hk⟩

theorem reaches_buildArchivePath_isSome (k : Nat) :
    ∀ now p, filepathClean (dirIter k p) = filepathClean mountPath →
      ∃ n, (buildArchivePath n now p).isSome = true := by
  induction k with
  | zero =>
    intro now p h
    simp only [dirIter] at h
    exact ⟨1, by rw [buildArchivePath, if_pos h]; rfl⟩
  | succ k ih =>
    intro now p h
    by_cases hg : filepathClean p = filepathClean mountPath
    · exact ⟨1, by rw [buildArchivePath, if_pos hg]; rfl⟩
    · simp only [dirIter] at h
      obtain ⟨n, hn⟩ := ih now (filepathDir p) h
      cases hrec : buildArchivePath n now (filepathDir p) with
      | none => rw [hrec] at hn; simp at hn
      | some r =>
        exact ⟨n + 1, by rw [buildArchivePath, if_neg hg, hrec]; rfl⟩

theorem mem_cleanGo (r : Bool) (l : List Str) :
    ∀ st, ∀ x ∈ cleanGo r st l,
      x ∈ st ∨ x = ['.', '.'] ∨ (x ∈ l ∧ x ≠ [] ∧ x ≠ ['.']) := by
  induction l with
  | nil =>
    intro st x hx
    rw [cleanGo_nil] at hx
    exact Or.inl (List.mem_reverse.mp hx)
  | cons s l ih =>
    intro st x hx
    have lift : ∀ st' : List Str, x ∈ st' ∨ x = ['.', '.'] ∨ (x ∈ l ∧ x ≠ [] ∧ x ≠ ['.']) →
        x ∈ st' ∨ x = ['.', '.'] ∨ (x ∈ s :: l ∧ x ≠ [] ∧ x ≠ ['.']) := by
      rintro st' (h | h | ⟨h1, h2, h3⟩)
      · exact Or.inl h
      · exact Or.inr (Or.inl h)
      · exact Or.inr (Or.inr ⟨List.mem_cons_of_mem s h1, h2, h3⟩)
    rw [cleanGo_cons] at hx
    by_cases h1 : s = [] ∨ s = ['.']
    · rw [if_pos h1] at hx
      exact lift st (ih st x hx)
    · rw [if_neg h1] at hx
      by_cases h2 : s = ['.', '.']
      · rw [if_pos h2] at hx
        cases st with
        | nil =>
          rw [show (match ([] : List Str) with
              | t :: st' => if t = ['.', '.'] then cleanGo r (['.', '.'] :: t :: st') l
                else cleanGo r st' l
              | [] => if r = true then cleanGo r [] l else cleanGo r [['.', '.']] l)
              = if r = true then cleanGo r [] l else cleanGo r [['.', '.']] l from rfl] at hx
          by_cases hr : r = true
          · rw [if_pos hr] at hx
            exact lift [] (ih [] x hx)
          · rw [if_neg hr] at hx
            rcases lift [['.', '.']] (ih [['.', '.']] x hx) with h | h
            · exact Or.inr (Or.inl (List.mem_singleton.mp h))
            · exact Or.inr h
        | cons t st' =>
          rw [show (match t :: st' with
              | t :: st' => if t = ['.', '.'] then cleanGo r (['.', '.'] :: t :: st') l
                else cleanGo r st' l
              | [] => if r = true then cleanGo r [] l else cleanGo r [['.', '.']] l)
              = if t = ['.', '.'] then cleanGo r (['.', '.'] :: t :: st') l
                else cleanGo r st' l from rfl] at hx
          by_cases ht : t = ['.', '.']
          · rw [if_pos ht] at hx
            rcases lift (['.', '.'] :: t :: st') (ih (['.', '.'] :: t :: st') x hx) with h | h
            · rcases List.mem_cons.mp h with h3 | h3
              · exact Or.inr (Or.inl h3)
              · exact Or.inl h3
            · exact Or.inr h
          · rw [if_neg ht] at hx
            rcases lift st' (ih st' x hx) with h | h
            · exact Or.inl (List.mem_cons_of_mem t h)
            · exact Or.inr h
      · rw [if_neg h2] at hx
        rcases lift (s :: st) (ih (s :: st) x hx) with h | h
        · rcases List.mem_cons.mp h with h3 | h3
          · subst h3
            push_neg at h1
            exact Or.inr (Or.inr ⟨List.mem_cons_self x l, h1.1, h1.2⟩)
          · exact Or.inl h3
        · exact Or.inr h

theorem clean_rooted_head (p : Str) (hp : p.head? = some '/') :
    filepathClean p = '/' :: joinSlash (cleanGo true [] (splitSlash p)) := by
  have hne : p ≠ [] := by intro h; subst h; simp at hp
  rw [filepathClean, if_neg hne, if_pos hp]

theorem joinSlash_single_of_no_slash (out : List Str) (w : Str)
    (hout : ∀ x ∈ out, '/' ∉ x) (hw : joinSlash out = w) (hwne : w ≠ []) (hwns : '/' ∉ w) :
    out = [w] := by
  cases out with
  | nil => exact absurd hw.symm (by simpa [joinSlash, joinSep] using hwne)
  | cons s t =>
    cases t with
    | nil =>
      have : s = w := by simpa [joinSlash, joinSep] using hw
      rw [this]
    | cons u v =>
      exfalso
      apply hwns
      rw [← hw, joinSlash, joinSep_cons '/' s (u :: v) (by simp)]
      exact List.mem_append_right s (List.mem_cons_self '/' _)

theorem outside_not_root (p : Str) (hp : p.head? = some '/')
    (hpv : strLit "persistentvolumes" ∉ splitSlash p) :
    filepathClean p ≠ filepathClean mountPath := by
  rw [clean_rooted_head p hp, clean_mountPath]
  intro h
  rw [show mountRootClean = '/' :: strLit "persistentvolumes" from by decide] at h
  have h2 : joinSlash (cleanGo true [] (splitSlash p)) = strLit "persistentvolumes" := by
    injection h
  have hout : ∀ x ∈ cleanGo true [] (splitSlash p), '/' ∉ x := by
    intro x hx
    rcases mem_cleanGo true (splitSlash p) [] x hx with h3 | h3 | ⟨h3, _, _⟩
    · simp at h3
    · subst h3; decide
    · exact mem_splitSlash_no_slash p x h3
  have hsingle := joinSlash_single_of_no_slash _ _ hout h2 (by decide) (by decide)
  have hpv' : strLit "persistentvolumes" ∈ cleanGo true [] (splitSlash p) := by
    rw [hsingle]; exact List.mem_singleton.mpr rfl
  rcases mem_cleanGo true (splitSlash p) [] _ hpv' with h3 | h3 | ⟨h3, _, _⟩
  · simp at h3
  · exact absurd h3 (by decide)
  · exact hpv h3

theorem exists_last_slash (p : Str) (hp : '/' ∈ p) :
    ∃ a b, p = a ++ '/' :: b ∧ '/' ∉ b := by
  induction p with
  | nil => simp at hp
  | cons c rest ih =>
    by_cases hr : '/' ∈ rest
    · obtain ⟨a, b, hab, hb⟩ := ih hr
      exact ⟨c :: a, b, by rw [hab]; rfl, hb⟩
    · have hc : c = '/' := by
        rcases List.mem_cons.mp hp with h | h
        · exact h.symm
        · exact absurd h hr
      exact ⟨[], rest, by rw [hc]; rfl, hr⟩

theorem outside_dir (p : Str) (hp : p.head? = some '/')
    (hpv : strLit "persistentvolumes" ∉ splitSlash p) :
    (filepathDir p).head? = some '/' ∧ strLit "persistentvolumes" ∉ splitSlash (filepathDir p) := by
  have hslash : '/' ∈ p := by
    cases p with
    | nil => simp at hp
    | cons c t =>
      have : c = '/' := by simpa using hp
      rw [this]
      exact List.mem_cons_self '/' t
  obtain ⟨a, b, hab, hb⟩ := exists_last_slash p hslash
  have hq : takeToLastSlash p = a ++ ['/'] := by rw [hab]; exact takeToLastSlash_append a b hb
  have hqh : (a ++ ['/']).head? = some '/' := by
    cases a with
    | nil => rfl
    | cons c t =>
      have hc : c = '/' := by rw [hab] at hp; simpa using hp
      simp [hc]
  have hqd : filepathDir p = '/' :: joinSlash (cleanGo true [] (splitSlash (a ++ ['/']))) := by
    rw [filepathDir, hq, clean_rooted_head _ hqh]
  constructor
  · rw [hqd]; rfl
  · rw [hqd]
    intro hmem
    rw [splitSlash_cons_slash] at hmem
    rcases List.mem_cons.mp hmem with h | h
    · exact absurd h (by decide)
    · have hout : ∀ x ∈ cleanGo true [] (splitSlash (a ++ ['/'])), '/' ∉ x := by
        intro x hx
        rcases mem_cleanGo true (splitSlash (a ++ ['/'])) [] x hx with h3 | h3 | ⟨h3, _, _⟩
        · simp at h3
        · subst h3; decide
        · exact mem_splitSlash_no_slash _ x h3
      by_cases ho : cleanGo true [] (splitSlash (a ++ ['/'])) = []
      · rw [ho] at h
        have : strLit "persistentvolumes" = [] := by simpa [joinSlash, joinSep, splitSlash] using h
        exact absurd this (by decide)
      · rw [splitSlash_joinSlash _ ho hout] at h
        rcases mem_cleanGo true (splitSlash (a ++ ['/'])) [] _ h with h3 | h3 | ⟨h3, _, _⟩
        · simp at h3
        · exact absurd h3 (by decide)
        · rw [show a ++ ['/'] = a ++ '/' :: [] from rfl, splitSlash_append_slash] at h3
          rcases List.mem_append.mp h3 with h4 | h4
          · apply hpv
            rw [hab, splitSlash_append_slash]
            exact List.mem_append_left _ h4
          · have : strLit "persistentvolumes" = [] := by simpa [splitSlash] using h4
            exact absurd this (by decide)

theorem buildArchivePath_outside_none (n : Nat) :
    ∀ now p, p.head? = some '/' → strLit "persistentvolumes" ∉ splitSlash p →
      buildArchivePath n now p = none := by
  induction n with
  | zero => intro now p _ _; rfl
  | succ n ih =>
    intro now p hp hpv
    obtain ⟨h1, h2⟩ := outside_dir p hp hpv
    rw [buildArchivePath, if_neg (outside_not_root p hp hpv), ih now _ h1 h2]

/-- C9 (amended).  `buildArchivePath` terminates on a path exactly when
the iterated `filepath.Dir` walk reaches the cleaned mount root; it
terminates on every cleaned path strictly under the mount root (with the
fuel model, `some` within `segs.length + 1` steps); and it diverges
(`none` at every fuel) on every absolute path none of whose slash-chunks
is the component `persistentvolumes` — such walks reach `/` and stay
there.  (The original claim's "diverges on every absolute path outside
the mount root" fails: see the counterexample `/persistentvolumes/..`.) -/
theorem buildArchivePath_termination :
    (∀ now p, (∃ n, (buildArchivePath n now p).isSome = true)
        ↔ ∃ k, filepathClean (dirIter k p) = filepathClean mountPath)
    ∧ (∀ now segs, segs ≠ [] → (∀ s ∈ segs, validSeg s) →
        (buildArchivePath (segs.length + 1) now (underPath segs)).isSome = true)
    ∧ (∀ now p n, p.head? = some '/' → strLit "persistentvolumes" ∉ splitSlash p →
        buildArchivePath n now p = none) := by
  refine ⟨?_, ?_, ?_⟩
  · intro now p
    constructor
    · rintro ⟨n, hn⟩
      exact buildArchivePath_isSome_reaches n now p hn
    · rintro ⟨k, hk⟩
      exact reaches_buildArchivePath_isSome k now p hk
  · intro now segs hne hv
    rw [buildArchivePath_under now segs hne hv]
    rfl
  · intro now p n h1 h2
    exact buildArchivePath_outside_none n now p h1 h2

/-- Counterexample to C9 as stated: `/persistentvolumes/..` is an
absolute path outside the mount root — it cleans to `/` — yet
`buildArchivePath` terminates on it, because the first parent step
`Dir("/persistentvolumes/..") = /persistentvolumes` hits the guard. -/
theorem buildArchivePath_outside_terminates_counterexample :
    filepathClean (strLit "/persistentvolumes/..") = strLit "/"
      ∧ filepathClean (strLit "/persistentvolumes/..") ≠ filepathClean mountPath
      ∧ buildArchivePath 2 (strLit "202405011030") (strLit "/persistentvolumes/..")
          = some (strLit "_archived_/202405011030...") := by decide

/-- Witness for C9: the amended theorem applied at `/a/b` (diverges) and
at the single-segment under-root path `/persistentvolumes/x`
(terminates). -/
theorem buildArchivePath_termination_witness :
    buildArchivePath 5 (strLit "T") (strLit "/a/b") = none
      ∧ (buildArchivePath ([strLit "x"].length + 1) (strLit "T") (underPath [strLit "x"])).isSome = true :=
  ⟨buildArchivePath_termination.2.2 (strLit "T") (strLit "/a/b") 5 (by decide) (by decide),
    buildArchivePath_termination.2.1 (strLit "T") [strLit "x"] (by decide) (by decide)⟩

/-- C3.  A provision request carrying a (non-nil) selector is rejected:
no resource, the terminal `Finished` outcome, an error, and no filesystem
operation (the filesystem is returned untouched). -/
theorem provision_selector_rejected (p : NfsProvisioner) (o : ProvisionOptions) (fs : Fs)
    (h : o.hasSelector = true) :
    provision p o fs = ⟨none, provisioningFinished, some .selectorUnsupported, fs⟩ := by
  rw [provision, if_pos h]

/-- Witness for C3 at a concrete request. -/
theorem provision_selector_rejected_witness :
    provision ⟨strLit "srv", strLit "/export"⟩
        ⟨true, strLit "ns1", strLit "claim1", strLit "pvc-abc", [], [], []⟩ ⟨[], [], []⟩
      = ⟨none, provisioningFinished, some .selectorUnsupported, ⟨[], [], []⟩⟩ :=
  provision_selector_rejected _ _ _ rfl

/-- C6.  When the translated local path does not exist, `Delete` returns
success and performs no filesystem mutation — for every class-lookup
outcome, including lookup failure, because the existence check precedes
the class lookup. -/
theorem delete_missing_path_noop (p : NfsProvisioner) (classRes : Except Err Params)
    (now volumePath : Str) (fs : Fs)
    (h : statExists fs (stringsReplaceOnce volumePath p.path mountPath) = false) :
    deleteVolume p classRes now volumePath fs = some (.ok fs) := by
  simp [deleteVolume, h]

/-- Witness for C6: a missing path with a failing class lookup. -/
theorem delete_missing_path_noop_witness :
    statExists ⟨[], [], []⟩ (stringsReplaceOnce (strLit "/export/x") (strLit "/export") mountPath) = false
      ∧ deleteVolume ⟨strLit "srv", strLit "/export"⟩ (.error (.classLookup (strLit "no class")))
          (strLit "T") (strLit "/export/x") ⟨[], [], []⟩ = some (.ok ⟨[], [], []⟩) :=
  ⟨by decide, delete_missing_path_noop _ _ _ _ _ (by decide)⟩

theorem replaceOnceGo_no_occurrence (old new s : Str) (h : ¬ old <:+: s) :
    replaceOnceGo old new s = s := by
  induction s with
  | nil => rfl
  | cons c rest ih =>
    rw [replaceOnceGo, if_neg (fun hp => h hp.isInfix),
      ih (fun hi => h (List.infix_cons hi))]

theorem replaceOnceGo_first (old new : Str) (hne : old ≠ []) :
    ∀ a b, (∀ j, j < a.length → ¬ old <+: (a ++ (old ++ b)).drop j) →
      replaceOnceGo old new (a ++ (old ++ b)) = a ++ (new ++ b) := by
  intro a
  induction a with
  | nil =>
    intro b _
    obtain ⟨o, os, ho⟩ := List.exists_cons_of_ne_nil hne
    subst ho
    simp only [List.nil_append]
    rw [List.cons_append, replaceOnceGo]
    rw [if_pos (show (o :: os) <+: o :: (os ++ b) from by
      rw [← List.cons_append]; exact List.prefix_append (o :: os) b)]
    rw [← List.cons_append, List.drop_left]
  | cons c a ih =>
    intro b h
    have h0 : ¬ old <+: ((c :: a) ++ (old ++ b)) := by
      have := h 0 (by simp)
      simpa using this
    rw [List.cons_append, replaceOnceGo, if_neg (by rw [← List.cons_append]; exact h0)]
    rw [ih b (fun j hj => by
      have := h (j + 1) (by simp; omega)
      simpa using this)]
    rfl

/-- C10.  `Delete` translates the volume's export-facing path to a local
path by replacing the first occurrence of the configured export root as a
substring anywhere in the path (`strings.Replace(path, p.path, mountPath,
1)`): a path not containing the export-root string is used unchanged, and
when the first occurrence sits at an interior position the replacement
happens there. -/
theorem delete_path_translation :
    (∀ (p : NfsProvisioner) (path : Str), p.path ≠ [] → ¬ p.path <:+: path →
        stringsReplaceOnce path p.path mountPath = path)
    ∧ (∀ (p : NfsProvisioner) (a b : Str), p.path ≠ [] →
        (∀ j, j < a.length → ¬ p.path <+: (a ++ (p.path ++ b)).drop j) →
        stringsReplaceOnce (a ++ (p.path ++ b)) p.path mountPath = a ++ (mountPath ++ b)) := by
  constructor
  · intro p path hne h
    rw [stringsReplaceOnce, if_neg hne]
    exact replaceOnceGo_no_occurrence p.path mountPath path h
  · intro p a b hne h
    rw [stringsReplaceOnce, if_neg hne]
    exact replaceOnceGo_first p.path mountPath hne a b h

/-- Witness for C10: a volume path without the export root is unchanged,
and a first occurrence at an interior (non-prefix) position is replaced
there. -/
theorem delete_path_translation_witness :
    stringsReplaceOnce (strLit "/other/x") (strLit "/export") mountPath = strLit "/other/x"
      ∧ stringsReplaceOnce (strLit "/x/" ++ (strLit "export" ++ strLit "/a")) (strLit "export") mountPath
          = strLit "/x/" ++ (mountPath ++ strLit "/a") :=
  ⟨delete_path_translation.1 ⟨strLit "srv", strLit "/export"⟩ (strLit "/other/x")
      (by decide) (by decide),
    delete_path_translation.2 ⟨strLit "srv", strLit "export"⟩ (strLit "/x/") (strLit "/a")
      (by decide) (by decide)⟩

/-- C4 (amended).  The relative path defaults to
`namespace-name-generatedID`; a `pathPattern` parameter whose rendering
is non-empty overrides it; an empty rendering falls back to the default.
(The original claim's conclusion "the created directory is never the
mount root itself" fails: a non-empty rendering such as `.` cleans to
the mount root — see the counterexample.) -/
theorem provision_path_selection (p : NfsProvisioner) (o : ProvisionOptions) :
    (lookupP o.classParams (strLit "pathPattern") = none →
        provisionPaths p o
          = (filepathJoin mountPath (o.pvcNamespace ++ '-' :: o.pvcName ++ '-' :: o.pvName),
             filepathJoin p.path (o.pvcNamespace ++ '-' :: o.pvcName ++ '-' :: o.pvName)))
    ∧ (∀ pat, lookupP o.classParams (strLit "pathPattern") = some pat →
        stringParser ⟨[(strLit "name", o.pvcName), (strLit "namespace", o.pvcNamespace),
            (strLit "pvname", o.pvName)], o.labels, o.annotations⟩ pat = [] →
        provisionPaths p o
          = (filepathJoin mountPath (o.pvcNamespace ++ '-' :: o.pvcName ++ '-' :: o.pvName),
             filepathJoin p.path (o.pvcNamespace ++ '-' :: o.pvcName ++ '-' :: o.pvName)))
    ∧ (∀ pat, lookupP o.classParams (strLit "pathPattern") = some pat →
        stringParser ⟨[(strLit "name", o.pvcName), (strLit "namespace", o.pvcNamespace),
            (strLit "pvname", o.pvName)], o.labels, o.annotations⟩ pat ≠ [] →
        provisionPaths p o
          = (filepathJoin mountPath (stringParser ⟨[(strLit "name", o.pvcName),
                (strLit "namespace", o.pvcNamespace), (strLit "pvname", o.pvName)],
                o.labels, o.annotations⟩ pat),
             filepathJoin p.path (stringParser ⟨[(strLit "name", o.pvcName),
                (strLit "namespace", o.pvcNamespace), (strLit "pvname", o.pvName)],
                o.labels, o.annotations⟩ pat))) := by
  refine ⟨?_, ?_, ?_⟩
  · intro h
    simp [provisionPaths, h]
  · intro pat h hempty
    simp [provisionPaths, h, hempty]
  · intro pat h hval
    simp [provisionPaths, h, hval]

/-- Witness for C4: the spec's default-path example and a non-empty
pattern override. -/
theorem provision_path_selection_witness :
    provisionPaths ⟨strLit "srv", strLit "/export"⟩
        ⟨false, strLit "ns1", strLit "claim1", strLit "pvc-abc", [], [], []⟩
      = (filepathJoin mountPath
          (strLit "ns1" ++ '-' :: strLit "claim1" ++ '-' :: strLit "pvc-abc"),
         filepathJoin (strLit "/export")
          (strLit "ns1" ++ '-' :: strLit "claim1" ++ '-' :: strLit "pvc-abc"))
      ∧ filepathJoin mountPath (strLit "ns1" ++ '-' :: strLit "claim1" ++ '-' :: strLit "pvc-abc")
          = strLit "/persistentvolumes/ns1-claim1-pvc-abc" :=
  ⟨(provision_path_selection ⟨strLit "srv", strLit "/export"⟩
      ⟨false, strLit "ns1", strLit "claim1", strLit "pvc-abc", [], [], []⟩).1 rfl,
    by decide⟩

/-- Counterexample to C4's "never the mount root": with `pathPattern`
`"."` the rendering is non-empty, overrides the default, and the created
directory is exactly the mount root (`/persistentvolumes` is the only
directory created, and the returned volume path is the export root
itself). -/
theorem provision_path_pattern_dot_counterexample :
    (provision ⟨strLit "srv", strLit "/export"⟩
        ⟨false, strLit "ns1", strLit "claim1", strLit "pvc-abc", [], [],
          [(strLit "pathPattern", strLit ".")]⟩ ⟨[], [], []⟩).fs.dirs
        = [[strLit "persistentvolumes"]]
      ∧ resolvePath mountPath = some [strLit "persistentvolumes"]
      ∧ (provision ⟨strLit "srv", strLit "/export"⟩
          ⟨false, strLit "ns1", strLit "claim1", strLit "pvc-abc", [], [],
            [(strLit "pathPattern", strLit ".")]⟩ ⟨[], [], []⟩).pv
        = some ⟨strLit "srv", strLit "/export"⟩ := by decide

/-- C8 (amended).  Branch by branch: `Provision` reports the terminal
`Finished` state on selector rejection, on directory-creation failure
and on success; only the permission-reassertion (chmod) failure branch
deviates, returning the empty state and no volume. -/
theorem provision_states (p : NfsProvisioner) (o : ProvisionOptions) (fs : Fs) :
    (o.hasSelector = true → (provision p o fs).state = provisioningFinished)
    ∧ (o.hasSelector = false →
        (∀ e, fsMkdirAll fs (provisionPaths p o).1 = .error e →
          (provision p o fs).state = provisioningFinished ∧ (provision p o fs).pv = none)
        ∧ (∀ fs₁, fsMkdirAll fs (provisionPaths p o).1 = .ok fs₁ →
            (∀ fs₂, fsChmod fs₁ (provisionPaths p o).1 = .ok fs₂ →
              (provision p o fs).state = provisioningFinished)
            ∧ (∀ e, fsChmod fs₁ (provisionPaths p o).1 = .error e →
              (provision p o fs).state = [] ∧ (provision p o fs).pv = none))) := by
  constructor
  · intro hs
    rw [provision, if_pos hs]
  · intro hs
    constructor
    · intro e he
      refine ⟨?_, ?_⟩ <;> simp [provision, hs, he]
    · intro fs₁ hmk
      constructor
      · intro fs₂ hch
        simp [provision, hs, hmk, hch]
      · intro e hch
        refine ⟨?_, ?_⟩ <;> simp [provision, hs, hmk, hch]

/-- Witness for C8: at concrete requests, the theorem's chmod-failure
branch yields the empty state and no volume, and its success branch
yields `Finished`. -/
theorem provision_states_witness :
    ((provision ⟨strLit "srv", strLit "/export"⟩
        ⟨false, strLit "ns1", strLit "claim1", strLit "pvc-abc", [], [], []⟩
        ⟨[], [], [[strLit "persistentvolumes", strLit "ns1-claim1-pvc-abc"]]⟩).state = []
      ∧ (provision ⟨strLit "srv", strLit "/export"⟩
        ⟨false, strLit "ns1", strLit "claim1", strLit "pvc-abc", [], [], []⟩
        ⟨[], [], [[strLit "persistentvolumes", strLit "ns1-claim1-pvc-abc"]]⟩).pv = none)
    ∧ (provision ⟨strLit "srv", strLit "/export"⟩
        ⟨false, strLit "ns1", strLit "claim1", strLit "pvc-abc", [], [], []⟩
        ⟨[], [], []⟩).state = provisioningFinished :=
  ⟨(((provision_states ⟨strLit "srv", strLit "/export"⟩
        ⟨false, strLit "ns1", strLit "claim1", strLit "pvc-abc", [], [], []⟩
        ⟨[], [], [[strLit "persistentvolumes", strLit "ns1-claim1-pvc-abc"]]⟩).2 rfl).2
      ⟨[[strLit "persistentvolumes"], [strLit "persistentvolumes", strLit "ns1-claim1-pvc-abc"]], [],
        [[strLit "persistentvolumes", strLit "ns1-claim1-pvc-abc"]]⟩
      (by decide)).2 (.chmodFail (strLit "/persistentvolumes/ns1-claim1-pvc-abc")) (by decide),
    (((provision_states ⟨strLit "srv", strLit "/export"⟩
        ⟨false, strLit "ns1", strLit "claim1", strLit "pvc-abc", [], [], []⟩
        ⟨[], [], []⟩).2 rfl).2
      ⟨[[strLit "persistentvolumes"], [strLit "persistentvolumes", strLit "ns1-claim1-pvc-abc"]], [], []⟩
      (by decide)).1 ⟨[[strLit "persistentvolumes"], [strLit "persistentvolumes", strLit "ns1-claim1-pvc-abc"]], [], []⟩
      (by decide)⟩

/-- Counterexample to C8: on a permission-reassertion (chmod) failure,
`Provision` returns the empty state, which is not `Finished`. -/
theorem provision_chmod_state_counterexample :
    (provision ⟨strLit "srv", strLit "/export"⟩
        ⟨false, strLit "ns1", strLit "claim1", strLit "pvc-abc", [], [], []⟩
        ⟨[], [], [[strLit "persistentvolumes", strLit "ns1-claim1-pvc-abc"]]⟩).state = []
      ∧ ([] : Str) ≠ provisioningFinished := by decide

theorem fsRemove_ok_dirs (fs fs' : Fs) (p : Str) (h : fsRemove fs p = .ok fs') :
    ∃ segs, resolvePath p = some segs ∧ segs ≠ [] ∧ segs ∈ fs.dirs
      ∧ (∀ q ∈ fs.dirs, segs <+: q → segs = q)
      ∧ fs'.dirs = fs.dirs.filter (fun q => q ≠ segs)
      ∧ fs'.mkdirDenied = fs.mkdirDenied ∧ fs'.chmodDenied = fs.chmodDenied := by
  rw [fsRemove] at h
  split at h
  · exact absurd h (by simp)
  · rename_i segs hres
    by_cases hnil : segs = []
    · rw [if_pos hnil] at h; exact absurd h (by simp)
    · rw [if_neg hnil] at h
      by_cases hcond : segs ∈ fs.dirs ∧ ¬ ∃ q ∈ fs.dirs, segs <+: q ∧ segs ≠ q
      · rw [if_pos hcond] at h
        injection h with h
        refine ⟨segs, hres, hnil, hcond.1, ?_, by rw [← h], by rw [← h], by rw [← h]⟩
        intro q hq hpre
        by_contra hne
        exact hcond.2 ⟨q, hq, hpre, hne⟩
      · rw [if_neg hcond] at h; exact absurd h (by simp)

theorem pruneGo_zero (p : Str) (fs : Fs) : pruneGo 0 p fs = (fs, []) := rfl

theorem pruneGo_dirs_subset (n : Nat) :
    ∀ p fs, (pruneGo n p fs).1.dirs ⊆ fs.dirs := by
  induction n with
  | zero => intro p fs; rw [pruneGo_zero]; exact fun _ h => h
  | succ n ih =>
    intro p fs
    rw [pruneGo]
    by_cases hg : filepathClean p = filepathClean mountPath
    · rw [if_pos hg]; exact fun _ h => h
    · rw [if_neg hg]
      cases hrm : fsRemove fs p with
      | error e => exact fun _ h => h
      | ok fs' =>
        obtain ⟨segs, _, _, _, _, hdirs, _, _⟩ := fsRemove_ok_dirs fs fs' p hrm
        intro q hq
        have hq' : q ∈ (pruneGo n (filepathDir p) fs').1.dirs := hq
        have h1 : q ∈ fs'.dirs := ih (filepathDir p) fs' hq'
        rw [hdirs] at h1
        exact List.mem_of_mem_filter h1

theorem pruneGo_trace_init (n : Nat) :
    ∀ p fs, ((pruneGo n p fs).2.dropLast).all (fun x => x.2) = true := by
  induction n with
  | zero => intro p fs; rw [pruneGo_zero]; rfl
  | succ n ih =>
    intro p fs
    rw [pruneGo]
    by_cases hg : filepathClean p = filepathClean mountPath
    · rw [if_pos hg]; rfl
    · rw [if_neg hg]
      cases hrm : fsRemove fs p with
      | error e => rfl
      | ok fs' =>
        show (((p, true) :: (pruneGo n (filepathDir p) fs').2).dropLast).all (fun x => x.2) = true
        cases ht : (pruneGo n (filepathDir p) fs').2 with
        | nil => rfl
        | cons y ys =>
          have h1 := ih (filepathDir p) fs'
          rw [ht] at h1
          rw [show ((p, true) :: y :: ys).dropLast = (p, true) :: (y :: ys).dropLast from rfl]
          simpa using h1

theorem pruneGo_keeps_parents (n : Nat) :
    ∀ p fs q r, q ∈ fs.dirs → r ∈ (pruneGo n p fs).1.dirs → q <+: r → q ≠ r →
      q ∈ (pruneGo n p fs).1.dirs := by
  induction n with
  | zero => intro p fs q r hq _ _ _; rw [pruneGo_zero]; exact hq
  | succ n ih =>
    intro p fs q r hq hr hpre hne
    rw [pruneGo] at hr ⊢
    by_cases hg : filepathClean p = filepathClean mountPath
    · rw [if_pos hg] at hr ⊢; exact hq
    · rw [if_neg hg] at hr ⊢
      cases hrm : fsRemove fs p with
      | error e => exact hq
      | ok fs' =>
        rw [hrm] at hr
        have hr' : r ∈ (pruneGo n (filepathDir p) fs').1.dirs := hr
        show q ∈ (pruneGo n (filepathDir p) fs').1.dirs
        obtain ⟨segs, _, _, _, hmax, hdirs, _, _⟩ := fsRemove_ok_dirs fs fs' p hrm
        by_cases hq' : q ∈ fs'.dirs
        · exact ih (filepathDir p) fs' q r hq' hr' hpre hne
        · exfalso
          have hqsegs : q = segs := by
            by_contra hne'
            apply hq'
            rw [hdirs]
            exact List.mem_filter.mpr ⟨hq, by simp [hne']⟩
          have hrfs : r ∈ fs.dirs := by
            have h1 : r ∈ fs'.dirs := pruneGo_dirs_subset n (filepathDir p) fs' hr'
            rw [hdirs] at h1
            exact List.mem_of_mem_filter h1
          exact hne (hqsegs ▸ (hmax r hrfs (hqsegs ▸ hpre)).symm ▸ rfl)

theorem pruneGo_at_root (n : Nat) (fs : Fs) : pruneGo n mountRootClean fs = (fs, []) := by
  cases n with
  | zero => rfl
  | succ n =>
    rw [pruneGo, if_pos (by rw [clean_mountRootClean, clean_mountPath])]

theorem pruneGo_under_attempts (segs : List Str) :
    segs ≠ [] → (∀ s ∈ segs, validSeg s) → ∀ n fs, ∀ y ∈ (pruneGo n (underPath segs) fs).2,
      ∃ segs', segs' ≠ [] ∧ (∀ s ∈ segs', validSeg s) ∧ y.1 = underPath segs' := by
  induction segs using List.reverseRecOn with
  | nil => intro h; exact absurd rfl h
  | append_singleton l x ihl =>
    intro hne hv n fs y hy
    cases n with
    | zero => rw [pruneGo_zero] at hy; exact absurd hy (by simp)
    | succ n =>
      rw [pruneGo, if_neg (filepathClean_underPath_ne_root (l ++ [x]) (by simp) hv)] at hy
      have hx : validSeg x := hv x (by simp)
      have hl : ∀ s ∈ l, validSeg s := fun s hs => hv s (by simp [hs])
      cases hrm : fsRemove fs (underPath (l ++ [x])) with
      | error e =>
        rw [hrm] at hy
        have hy' : y = (underPath (l ++ [x]), false) := by simpa using hy
        exact ⟨l ++ [x], by simp, hv, by rw [hy']⟩
      | ok fs' =>
        rw [hrm] at hy
        simp only [] at hy
        rcases List.mem_cons.mp hy with h | h
        · exact ⟨l ++ [x], by simp, hv, by rw [h]⟩
        · rw [filepathDir_underPath l x hl hx] at h
          by_cases hln : l = []
          · rw [if_pos hln, (pruneGo_at_root n fs')] at h
            exact absurd h (by simp)
          · rw [if_neg hln] at h
            exact ihl hln hl n fs' y h

/-- C7 (amended).  Ancestor pruning removes a directory only when it is
empty at the attempt (the filesystem only shrinks, and a directory with
a surviving strict descendant survives), stops at the first removal that
fails (in the attempt trace every entry but possibly the last succeeded),
and, for every starting path strictly under the export root, never
attempts to remove the export root or any directory above it (every
attempted path is itself strictly under the export root); pruning
reports no error, so `deleteAndPruneEmptyParents` succeeds whenever the
recursive removal does.  (The original claim's "never attempts" fails
for starting paths outside the export tree — see the counterexample,
where `/` is attempted.) -/
theorem prune_safety :
    (∀ (n : Nat) (p : Str) (fs : Fs), (pruneGo n p fs).1.dirs ⊆ fs.dirs)
    ∧ (∀ (n : Nat) (p : Str) (fs : Fs) (q r : List Str),
        q ∈ fs.dirs → r ∈ (pruneGo n p fs).1.dirs → q <+: r → q ≠ r →
        q ∈ (pruneGo n p fs).1.dirs)
    ∧ (∀ (n : Nat) (p : Str) (fs : Fs),
        ((pruneGo n p fs).2.dropLast).all (fun x => x.2) = true)
    ∧ (∀ segs, segs ≠ [] → (∀ s ∈ segs, validSeg s) → ∀ (n : Nat) (fs : Fs),
        ∀ y ∈ (pruneGo n (underPath segs) fs).2,
          ∃ segs', segs' ≠ [] ∧ (∀ s ∈ segs', validSeg s) ∧ y.1 = underPath segs')
    ∧ (∀ (pth : Str) (fs fs₁ : Fs), fsRemoveAll fs pth = .ok fs₁ →
        deleteAndPruneEmptyParents pth fs = .ok (pruneEmptyParents (filepathDir pth) fs₁).1) := by
  refine ⟨fun n => pruneGo_dirs_subset n, fun n => pruneGo_keeps_parents n,
    fun n => pruneGo_trace_init n, pruneGo_under_attempts, ?_⟩
  intro pth fs fs₁ h
  rw [deleteAndPruneEmptyParents, h]

/-- Counterexample to C7 as stated ("for every starting path ... never
attempts to remove the export root or any directory above it"): pruning
from `/a`, an existing empty directory outside the export tree, removes
`/a` and then attempts to remove the filesystem root `/`, an ancestor of
the export root (the attempt fails, but it is made). -/
theorem prune_attempts_above_root_counterexample :
    (pruneEmptyParents (strLit "/a") ⟨[[], [strLit "a"]], [], []⟩).2
        = [(strLit "/a", true), (strLit "/", false)]
      ∧ resolvePath (strLit "/") = some []
      ∧ resolvePath mountPath = some [strLit "persistentvolumes"] := by decide

/-- Witness for C7 at a concrete under-root prune. -/
theorem prune_safety_witness :
    (pruneEmptyParents (underPath [strLit "a", strLit "b"])
        ⟨[[strLit "persistentvolumes"], [strLit "persistentvolumes", strLit "a"],
          [strLit "persistentvolumes", strLit "a", strLit "b"]], [], []⟩).1.dirs
        ⊆ [[strLit "persistentvolumes"], [strLit "persistentvolumes", strLit "a"],
          [strLit "persistentvolumes", strLit "a", strLit "b"]]
      ∧ ∀ y ∈ (pruneEmptyParents (underPath [strLit "a", strLit "b"])
          ⟨[[strLit "persistentvolumes"], [strLit "persistentvolumes", strLit "a"],
            [strLit "persistentvolumes", strLit "a", strLit "b"]], [], []⟩).2,
          ∃ segs', segs' ≠ [] ∧ (∀ s ∈ segs', validSeg s) ∧ y.1 = underPath segs' :=
  ⟨prune_safety.1 _ _ _,
    prune_safety.2.2.2.1 [strLit "a", strLit "b"] (by decide) (by decide) _ _⟩

theorem deleteAndPrune_removes (pth : Str) (fs fs' : Fs) (segs : List Str)
    (hres : resolvePath pth = some segs)
    (hok : deleteAndPruneEmptyParents pth fs = .ok fs') :
    ∀ q ∈ fs'.dirs, ¬ segs <+: q := by
  rw [deleteAndPruneEmptyParents, fsRemoveAll, hres] at hok
  have hok' : (Except.ok (pruneEmptyParents (filepathDir pth)
      { fs with dirs := fs.dirs.filter (fun q => ¬ segs <+: q) }).1 : Except Err Fs)
      = .ok fs' := hok
  injection hok' with hfs
  intro q hq hpre
  have h1 : q ∈ ({ fs with dirs := fs.dirs.filter (fun q => ¬ segs <+: q) } : Fs).dirs := by
    rw [← hfs] at hq
    exact pruneGo_dirs_subset _ _ _ hq
  have h2 := List.of_mem_filter h1
  simp at h2
  exact h2 hpre

/-- C1.  For a `Delete` whose local path exists and whose policy class
resolves, the decision follows the priority order: `onDelete=delete`
recursively removes the directory and prunes empty ancestors regardless
of `archiveOnDelete`; `onDelete=retain` returns success with the
filesystem untouched regardless of `archiveOnDelete`; otherwise an
`archiveOnDelete` that parses to false removes, one that fails to parse
propagates the parse error, and an absent or true `archiveOnDelete`
archives. -/
theorem delete_policy_priority (p : NfsProvisioner) (params : Params)
    (now volumePath oldPath : Str) (fs : Fs)
    (hop : oldPath = stringsReplaceOnce volumePath p.path mountPath)
    (hstat : statExists fs oldPath = true) :
    (lookupD params (strLit "onDelete") = strLit "delete" →
        deleteVolume p (.ok params) now volumePath fs = some (deleteAndPruneEmptyParents oldPath fs)
        ∧ ∀ segs fs', resolvePath oldPath = some segs →
            deleteAndPruneEmptyParents oldPath fs = .ok fs' → ∀ q ∈ fs'.dirs, ¬ segs <+: q)
    ∧ (lookupD params (strLit "onDelete") = strLit "retain" →
        deleteVolume p (.ok params) now volumePath fs = some (.ok fs))
    ∧ (lookupD params (strLit "onDelete") ≠ strLit "delete" →
        lookupD params (strLit "onDelete") ≠ strLit "retain" →
        (∀ v, lookupP params (strLit "archiveOnDelete") = some v →
          (strconvParseBool v = some false →
            deleteVolume p (.ok params) now volumePath fs
              = some (deleteAndPruneEmptyParents oldPath fs))
          ∧ (strconvParseBool v = none →
            deleteVolume p (.ok params) now volumePath fs = some (.error (.parseBoolFail v)))
          ∧ (strconvParseBool v = some true →
            deleteVolume p (.ok params) now volumePath fs
              = archiveAndPrune now oldPath fs))
        ∧ (lookupP params (strLit "archiveOnDelete") = none →
          deleteVolume p (.ok params) now volumePath fs
            = archiveAndPrune now oldPath fs)) := by
  subst hop
  refine ⟨?_, ?_, ?_⟩
  · intro hd
    refine ⟨by simp [deleteVolume, hstat, hd], ?_⟩
    intro segs fs' hres hok
    exact deleteAndPrune_removes _ fs fs' segs hres hok
  · intro hr
    have hd : lookupD params (strLit "onDelete") ≠ strLit "delete" := by
      rw [hr]; decide
    simp [deleteVolume, hstat, hd, hr, show strLit "retain" ≠ strLit "delete" from by decide]
  · intro hd hr
    constructor
    · intro v hv
      refine ⟨?_, ?_, ?_⟩
      · intro hpb
        simp [deleteVolume, hstat, hd, hr, hv, hpb]
      · intro hpb
        simp [deleteVolume, hstat, hd, hr, hv, hpb]
      · intro hpb
        simp [deleteVolume, hstat, hd, hr, hv, hpb]
    · intro hv
      simp [deleteVolume, hstat, hd, hr, hv]

/-- Witness for C1: the `onDelete=delete` branch at a concrete request. -/
theorem delete_policy_priority_witness :
    deleteVolume ⟨strLit "srv", strLit "/export"⟩ (.ok [(strLit "onDelete", strLit "delete")])
        (strLit "T") (strLit "/export/ns1-claim1-pvc-abc")
        ⟨[[strLit "persistentvolumes"], [strLit "persistentvolumes", strLit "ns1-claim1-pvc-abc"]], [], []⟩
      = some (deleteAndPruneEmptyParents
          (stringsReplaceOnce (strLit "/export/ns1-claim1-pvc-abc") (strLit "/export") mountPath)
          ⟨[[strLit "persistentvolumes"], [strLit "persistentvolumes", strLit "ns1-claim1-pvc-abc"]], [], []⟩) :=
  ((delete_policy_priority ⟨strLit "srv", strLit "/export"⟩ [(strLit "onDelete", strLit "delete")]
      (strLit "T") (strLit "/export/ns1-claim1-pvc-abc") _ _ rfl (by decide)).1 (by decide)).1

/-- A placeholder, identified by its inner text (the regexp's group 1). -/
structure Ph where
  key : Str
deriving DecidableEq

/-- The full text of a placeholder: `$\x7b.PVC.<key>\x7d`. -/
def phText (q : Ph) : Str := phPrefix ++ q.key ++ ['}']

/-- The metadata value a placeholder resolves to, following the same
alternation as `mkMatch`: a `labels.`/`annotations.` key reads the
respective map, anything else reads the plain-field map; a missing key
reads as the empty string (Go map semantics). -/
def phValue (meta : PvcMetadata) (q : Ph) : Str :=
  if labelsDot <+: q.key then lookupD meta.labels (q.key.drop labelsDot.length)
  else if annotationsDot <+: q.key then lookupD meta.annotations (q.key.drop annotationsDot.length)
  else lookupD meta.data q.key

/-- Interleave placeholders (rendered through `g`) with literal chunks:
the template shape `g(p1) ++ c1 ++ g(p2) ++ c2 ++ ...`. -/
def assembleTail (g : Ph → Str) : List (Ph × Str) → Str
  | [] => []
  | pc :: rest => g pc.1 ++ (pc.2 ++ assembleTail g rest)

/-- A placeholder key the regexp can match: free of `\x7d`, newline and
`$`. -/
def goodKey (k : Str) : Prop := '}' ∉ k ∧ '\n' ∉ k ∧ '$' ∉ k

instance : DecidablePred goodKey := fun k => by unfold goodKey; infer_instance

theorem replaceAllGo_zero (old new : Str) (s : Str) : replaceAllGo old new 0 s = s := rfl

theorem replaceAllGo_succ_nil (old new : Str) (fuel : Nat) :
    replaceAllGo old new (fuel + 1) [] = [] := rfl

theorem replaceAllGo_succ_cons (old new : Str) (fuel : Nat) (c : Char) (rest : Str) :
    replaceAllGo old new (fuel + 1) (c :: rest)
      = if old <+: (c :: rest) then
          new ++ replaceAllGo old new fuel ((c :: rest).drop old.length)
        else c :: replaceAllGo old new fuel rest := rfl

theorem findMatchesGo_zero (s : Str) : findMatchesGo 0 s = [] := rfl

theorem findMatchesGo_succ_nil (fuel : Nat) : findMatchesGo (fuel + 1) [] = [] := rfl

theorem findMatchesGo_succ_cons (fuel : Nat) (c : Char) (rest : Str) :
    findMatchesGo (fuel + 1) (c :: rest)
      = if phPrefix <+: (c :: rest) then
          match takeKey ((c :: rest).drop phPrefix.length) with
          | some (key, after) => mkMatch key :: findMatchesGo fuel after
          | none => findMatchesGo fuel rest
        else findMatchesGo fuel rest := rfl

theorem takeKey_length (s : Str) :
    ∀ k r, takeKey s = some (k, r) → r.length < s.length := by
  induction s with
  | nil => intro k r h; simp [takeKey] at h
  | cons c rest ih =>
    intro k r h
    rw [takeKey] at h
    by_cases hc : c = '}'
    · rw [if_pos hc] at h
      injection h with h
      injection h with h1 h2
      subst h2
      simp
    · rw [if_neg hc] at h
      by_cases hn : c = '\n'
      · rw [if_pos hn] at h; exact absurd h (by simp)
      · rw [if_neg hn] at h
        cases ht : takeKey rest with
        | none => rw [ht] at h; exact absurd h (by simp)
        | some kr =>
          rw [ht] at h
          injection h with h
          injection h with h1 h2
          subst h2
          have := ih kr.1 kr.2 (by rw [ht])
          simp only [List.length_cons]
          omega

theorem findMatchesGo_fuel (N : Nat) :
    ∀ (s : Str) (fuel : Nat), s.length ≤ N → s.length ≤ fuel →
      findMatchesGo fuel s = findMatchesGo s.length s := by
  induction N with
  | zero =>
    intro s fuel h _
    have : s = [] := List.length_eq_zero.mp (Nat.le_zero.mp h)
    subst this
    cases fuel <;> rfl
  | succ N ih =>
    intro s fuel h hf
    cases s with
    | nil => cases fuel <;> rfl
    | cons c rest =>
      cases fuel with
      | zero => simp at hf
      | succ m =>
        rw [findMatchesGo_succ_cons, show (c :: rest).length = rest.length + 1 from rfl,
          findMatchesGo_succ_cons]
        have h7 : phPrefix.length = 7 := by decide
        by_cases hp : phPrefix <+: (c :: rest)
        · rw [if_pos hp, if_pos hp]
          cases ht : takeKey ((c :: rest).drop phPrefix.length) with
          | none =>
            have h1 : rest.length ≤ N := by simp at h; omega
            rw [ih rest m h1 (by simp at hf; omega), ih rest rest.length h1 le_rfl]
          | some kr =>
            obtain ⟨key, after⟩ := kr
            have hlt := takeKey_length _ key after ht
            rw [List.length_drop, h7, List.length_cons] at hlt
            have h2 : after.length ≤ N := by
              simp only [List.length_cons] at h
              omega
            show mkMatch key :: findMatchesGo m after
              = mkMatch key :: findMatchesGo rest.length after
            rw [ih after m h2 (by simp only [List.length_cons] at hf; omega),
              ih after rest.length h2 (by omega)]
        · rw [if_neg hp, if_neg hp]
          have h1 : rest.length ≤ N := by simp at h; omega
          rw [ih rest m h1 (by simp at hf; omega), ih rest rest.length h1 le_rfl]

theorem replaceAllGo_fuel (N : Nat) :
    ∀ (old new s : Str) (fuel : Nat), old ≠ [] → s.length ≤ N → s.length ≤ fuel →
      replaceAllGo old new fuel s = replaceAllGo old new s.length s := by
  induction N with
  | zero =>
    intro old new s fuel _ h _
    have : s = [] := List.length_eq_zero.mp (Nat.le_zero.mp h)
    subst this
    cases fuel <;> rfl
  | succ N ih =>
    intro old new s fuel hold h hf
    cases s with
    | nil => cases fuel <;> rfl
    | cons c rest =>
      cases fuel with
      | zero => simp at hf
      | succ m =>
        rw [replaceAllGo_succ_cons, show (c :: rest).length = rest.length + 1 from rfl,
          replaceAllGo_succ_cons]
        by_cases hp : old <+: (c :: rest)
        · rw [if_pos hp, if_pos hp]
          have holdlen : 1 ≤ old.length := by
            cases old with
            | nil => exact absurd rfl hold
            | cons _ _ => simp
          have hdl : ((c :: rest).drop old.length).length ≤ rest.length := by
            rw [List.length_drop, List.length_cons]
            omega
          have h2 : ((c :: rest).drop old.length).length ≤ N := by
            simp only [List.length_cons] at h
            rw [List.length_drop, List.length_cons]
            omega
          rw [ih old new _ m hold h2 (by
              rw [List.length_drop, List.length_cons]
              simp only [List.length_cons] at hf
              omega),
            ih old new _ rest.length hold h2 hdl]
        · rw [if_neg hp, if_neg hp]
          have h1 : rest.length ≤ N := by simp at h; omega
          rw [ih old new rest m hold h1 (by simp at hf; omega),
            ih old new rest rest.length hold h1 le_rfl]

theorem stringsReplaceAll_cons_eq (os new : Str) (s : Str) :
    stringsReplaceAll s ('$' :: os) new = replaceAllGo ('$' :: os) new s.length s := rfl

theorem stringsReplaceAll_skip_char (os new : Str) (c : Char) (s : Str) (hc : c ≠ '$') :
    stringsReplaceAll (c :: s) ('$' :: os) new = c :: stringsReplaceAll s ('$' :: os) new := by
  rw [stringsReplaceAll_cons_eq, show (c :: s).length = s.length + 1 from rfl,
    replaceAllGo_succ_cons]
  rw [if_neg (fun hp => hc (((List.cons_prefix_cons).mp hp).1.symm))]
  rfl

theorem stringsReplaceAll_skip_chunk (os new : Str) (a s : Str) (ha : '$' ∉ a) :
    stringsReplaceAll (a ++ s) ('$' :: os) new = a ++ stringsReplaceAll s ('$' :: os) new := by
  induction a with
  | nil => simp
  | cons c a ih =>
    have hc : c ≠ '$' := fun hcc => ha (hcc ▸ List.mem_cons_self c a)
    rw [List.cons_append, stringsReplaceAll_skip_char os new c (a ++ s) hc,
      ih (fun hm => ha (List.mem_cons_of_mem c hm))]
    rfl

theorem stringsReplaceAll_match_head (os new s : Str) :
    stringsReplaceAll (('$' :: os) ++ s) ('$' :: os) new
      = new ++ stringsReplaceAll s ('$' :: os) new := by
  rw [stringsReplaceAll_cons_eq]
  rw [show ('$' :: os) ++ s = '$' :: (os ++ s) from rfl]
  have hlen : ('$' :: (os ++ s)).length = (os.length + s.length) + 1 := by simp
  rw [hlen, replaceAllGo_succ_cons]
  rw [if_pos (show ('$' :: os <+: '$' :: (os ++ s)) from List.prefix_append ('$' :: os) s)]
  have hdrop : ('$' :: (os ++ s)).drop ('$' :: os).length = s := List.drop_left ('$' :: os) s
  rw [hdrop]
  rw [replaceAllGo_fuel (os.length + s.length) ('$' :: os) new s (os.length + s.length)
    (by simp) (by omega) (by omega)]
  rfl

theorem key_align (a : Str) :
    ∀ b X : Str, '}' ∉ a → '}' ∉ b → (a ++ ['}']) <+: (b ++ '}' :: X) → a = b := by
  induction a with
  | nil =>
    intro b X _ hb h
    cases b with
    | nil => rfl
    | cons d b' =>
      exfalso
      rw [List.nil_append, List.cons_append] at h
      exact hb (((List.cons_prefix_cons).mp h).1 ▸ List.mem_cons_self d b')
  | cons c a' ih =>
    intro b X ha hb h
    cases b with
    | nil =>
      exfalso
      rw [List.cons_append, List.nil_append] at h
      exact ha (((List.cons_prefix_cons).mp h).1 ▸ List.mem_cons_self c a')
    | cons d b' =>
      rw [List.cons_append, List.cons_append] at h
      obtain ⟨hcd, hrest⟩ := (List.cons_prefix_cons).mp h
      rw [hcd, ih b' X (fun hm => ha (List.mem_cons_of_mem c hm))
        (fun hm => hb (List.mem_cons_of_mem d hm)) hrest]

/-- The placeholder text after its leading `$`. -/
def phBody (q : Ph) : Str := strLit "\x7b.PVC." ++ (q.key ++ ['}'])

theorem phPrefix_eq : phPrefix = '$' :: strLit "\x7b.PVC." := by decide

theorem phText_cons (q : Ph) : phText q = '$' :: phBody q := by
  rw [phText, phPrefix_eq, phBody]
  simp

theorem phBody_no_dollar (q : Ph) (h : '$' ∉ q.key) : '$' ∉ phBody q := by
  intro hm
  rw [phBody] at hm
  rcases List.mem_append.mp hm with h1 | h1
  · exact absurd h1 (by decide)
  · rcases List.mem_append.mp h1 with h2 | h2
    · exact h h2
    · exact absurd h2 (by decide)

theorem phText_append_eq (q : Ph) (s : Str) :
    phText q ++ s = phPrefix ++ (q.key ++ '}' :: s) := by
  rw [phText]
  simp

theorem phText_inj {p q : Ph} (h : phText p = phText q) : p = q := by
  rw [phText, phText] at h
  have h1 := List.append_cancel_left (by simpa [List.append_assoc] using h :
    phPrefix ++ (p.key ++ ['}']) = phPrefix ++ (q.key ++ ['}']))
  have h2 : p.key = q.key := by
    have := congrArg List.dropLast h1
    simpa using this
  cases p; cases q
  simp at h2
  rw [h2]

theorem stringsReplaceAll_skip_text (p q : Ph) (new s : Str)
    (hkp : goodKey p.key) (hkq : goodKey q.key) (hne : p.key ≠ q.key) :
    stringsReplaceAll (phText p ++ s) (phText q) new
      = phText p ++ stringsReplaceAll s (phText q) new := by
  have hnp : ¬ phText q <+: (phText p ++ s) := by
    intro h
    apply hne
    have h1 : phPrefix ++ (q.key ++ ['}']) <+: phPrefix ++ (p.key ++ '}' :: s) := by
      rw [← phText_append_eq p s]
      have : phText q = phPrefix ++ (q.key ++ ['}']) := by rw [phText]; simp
      rw [← this]
      exact h
    exact (key_align q.key p.key s hkq.1 hkp.1
      ((List.prefix_append_right_inj phPrefix).mp h1)).symm ▸ rfl
  rw [phText_cons p, phText_cons q, List.cons_append]
  rw [stringsReplaceAll_cons_eq, show ('$' :: (phBody p ++ s)).length
      = (phBody p ++ s).length + 1 from rfl, replaceAllGo_succ_cons]
  rw [if_neg (show ¬ ('$' :: phBody q <+: '$' :: (phBody p ++ s)) from by
    rw [← phText_cons q]
    intro hh
    exact hnp (by rw [phText_cons p, List.cons_append]; exact hh))]
  rw [← stringsReplaceAll_cons_eq]
  rw [show stringsReplaceAll (phBody p ++ s) ('$' :: phBody q) new
      = phBody p ++ stringsReplaceAll s ('$' :: phBody q) new from
    stringsReplaceAll_skip_chunk (phBody q) new (phBody p) s (phBody_no_dollar p hkp.2.2)]
  rfl

theorem takeKey_good (k : Str) (h1 : '}' ∉ k) (h2 : '\n' ∉ k) :
    ∀ s, takeKey (k ++ '}' :: s) = some (k, s) := by
  induction k with
  | nil =>
    intro s
    rw [List.nil_append, takeKey]
    simp
  | cons c k ih =>
    intro s
    have hc1 : c ≠ '}' := fun hh => h1 (hh ▸ List.mem_cons_self c k)
    have hc2 : c ≠ '\n' := fun hh => h2 (hh ▸ List.mem_cons_self c k)
    rw [List.cons_append, takeKey, if_neg hc1, if_neg hc2,
      ih (fun hm => h1 (List.mem_cons_of_mem c hm)) (fun hm => h2 (List.mem_cons_of_mem c hm)) s]

theorem phPrefix_prefix_head (c : Char) (rest : Str) (h : phPrefix <+: c :: rest) : c = '$' := by
  rw [phPrefix_eq] at h
  exact ((List.cons_prefix_cons).mp h).1.symm

theorem findMatches_skip_char (c : Char) (s : Str) (hc : c ≠ '$') :
    findMatches (c :: s) = findMatches s := by
  rw [findMatches, show (c :: s).length = s.length + 1 from rfl, findMatchesGo_succ_cons,
    if_neg (fun hp => hc (phPrefix_prefix_head c s hp))]
  rfl

theorem findMatches_skip_chunk (a s : Str) (ha : '$' ∉ a) :
    findMatches (a ++ s) = findMatches s := by
  induction a with
  | nil => simp
  | cons c a ih =>
    have hc : c ≠ '$' := fun hh => ha (hh ▸ List.mem_cons_self c a)
    rw [List.cons_append, findMatches_skip_char c (a ++ s) hc,
      ih (fun hm => ha (List.mem_cons_of_mem c hm))]

theorem findMatches_ph (q : Ph) (s : Str) (hk : goodKey q.key) :
    findMatches (phText q ++ s) = mkMatch q.key :: findMatches s := by
  have hform : phText q ++ s = '$' :: (phBody q ++ s) := by
    rw [phText_cons q, List.cons_append]
  have hform2 : '$' :: (phBody q ++ s) = phPrefix ++ (q.key ++ '}' :: s) := by
    rw [← hform, phText_append_eq]
  rw [findMatches, hform, show ('$' :: (phBody q ++ s)).length
      = (phBody q ++ s).length + 1 from rfl, findMatchesGo_succ_cons]
  rw [if_pos (show phPrefix <+: '$' :: (phBody q ++ s) from
    hform2 ▸ List.prefix_append phPrefix (q.key ++ '}' :: s))]
  have hdrop : ('$' :: (phBody q ++ s)).drop phPrefix.length = q.key ++ '}' :: s := by
    rw [hform2]
    exact List.drop_left phPrefix (q.key ++ '}' :: s)
  rw [hdrop, takeKey_good q.key hk.1 hk.2.1 s]
  show mkMatch q.key :: findMatchesGo ((phBody q ++ s).length) s = mkMatch q.key :: findMatches s
  rw [findMatchesGo_fuel ((phBody q ++ s).length) s ((phBody q ++ s).length)
    (by simp) (by simp)]
  rfl

theorem findMatches_assembled :
    ∀ (rest : List (Ph × Str)) (c0 : Str), '$' ∉ c0 →
      (∀ pc ∈ rest, goodKey pc.1.key) → (∀ pc ∈ rest, '$' ∉ pc.2) →
      findMatches (c0 ++ assembleTail phText rest) = rest.map (fun pc => mkMatch pc.1.key) := by
  intro rest
  induction rest with
  | nil =>
    intro c0 hc0 _ _
    have h1 := findMatches_skip_chunk c0 [] hc0
    rw [List.append_nil] at h1
    rw [show assembleTail phText [] = [] from rfl, List.append_nil, h1]
    rfl
  | cons pc rest ih =>
    intro c0 hc0 hk hch
    rw [show assembleTail phText (pc :: rest)
        = phText pc.1 ++ (pc.2 ++ assembleTail phText rest) from rfl]
    rw [findMatches_skip_chunk c0 _ hc0, findMatches_ph pc.1 _ (hk pc (by simp))]
    rw [ih pc.2 (hch pc (by simp)) (fun x hx => hk x (List.mem_cons_of_mem pc hx))
      (fun x hx => hch x (List.mem_cons_of_mem pc hx))]
    rfl

theorem stringsReplaceAll_nil_ph (q : Ph) (v : Str) :
    stringsReplaceAll [] (phText q) v = [] := by
  rw [phText_cons q]
  rfl

theorem stringsReplaceAll_skip_chunk_ph (q : Ph) (v a s : Str) (ha : '$' ∉ a) :
    stringsReplaceAll (a ++ s) (phText q) v = a ++ stringsReplaceAll s (phText q) v := by
  rw [phText_cons q]
  exact stringsReplaceAll_skip_chunk (phBody q) v a s ha

theorem stringsReplaceAll_match_head_ph (q : Ph) (v s : Str) :
    stringsReplaceAll (phText q ++ s) (phText q) v = v ++ stringsReplaceAll s (phText q) v := by
  rw [phText_cons q]
  exact stringsReplaceAll_match_head (phBody q) v s

theorem phText_of_key_eq {p q : Ph} (h : p.key = q.key) : phText p = phText q := by
  rw [phText, phText, h]

theorem replaceAll_assembleTail (metaq : Ph) (v : Str) (hkq : goodKey metaq.key) :
    ∀ (rest : List (Ph × Str)) (g : Ph → Str),
      (∀ pc ∈ rest, goodKey pc.1.key) →
      (∀ pc ∈ rest, '$' ∉ pc.2) →
      (∀ pc ∈ rest, g pc.1 = phText pc.1 ∨ '$' ∉ g pc.1) →
      stringsReplaceAll (assembleTail g rest) (phText metaq) v
        = assembleTail (fun p => if g p = phText metaq then v else g p) rest := by
  intro rest
  induction rest with
  | nil =>
    intro g _ _ _
    rw [show assembleTail g [] = [] from rfl, stringsReplaceAll_nil_ph]
    rfl
  | cons pc rest ih =>
    intro g hk hch hg
    rw [show assembleTail g (pc :: rest) = g pc.1 ++ (pc.2 ++ assembleTail g rest) from rfl]
    rw [show assembleTail (fun p => if g p = phText metaq then v else g p) (pc :: rest)
        = (if g pc.1 = phText metaq then v else g pc.1)
          ++ (pc.2 ++ assembleTail (fun p => if g p = phText metaq then v else g p) rest) from rfl]
    have ihr := ih g (fun x hx => hk x (List.mem_cons_of_mem pc hx))
      (fun x hx => hch x (List.mem_cons_of_mem pc hx))
      (fun x hx => hg x (List.mem_cons_of_mem pc hx))
    by_cases heq : g pc.1 = phText metaq
    · rw [if_pos heq, heq, stringsReplaceAll_match_head_ph metaq v _,
        stringsReplaceAll_skip_chunk_ph metaq v pc.2 _ (hch pc (by simp)), ihr]
    · rw [if_neg heq]
      rcases hg pc (by simp) with htext | hfree
      · have hkeysne : pc.1.key ≠ metaq.key := by
          intro hkk
          exact heq (htext.trans (phText_of_key_eq hkk))
        rw [htext, stringsReplaceAll_skip_text pc.1 metaq v _ (hk pc (by simp)) hkq hkeysne,
          stringsReplaceAll_skip_chunk_ph metaq v pc.2 _ (hch pc (by simp)), ihr]
      · rw [stringsReplaceAll_skip_chunk_ph metaq v (g pc.1) _ hfree,
          stringsReplaceAll_skip_chunk_ph metaq v pc.2 _ (hch pc (by simp)), ihr]

theorem stringParser_step (meta : PvcMetadata) (acc : Str) (k : Str) :
    (if (mkMatch k).r2 = strLit "labels"
      then stringsReplaceAll acc (mkMatch k).r0 (lookupD meta.labels (mkMatch k).r3)
      else if (mkMatch k).r2 = strLit "annotations"
        then stringsReplaceAll acc (mkMatch k).r0 (lookupD meta.annotations (mkMatch k).r3)
        else stringsReplaceAll acc (mkMatch k).r0 (lookupD meta.data (mkMatch k).r1))
    = stringsReplaceAll acc (phText ⟨k⟩) (phValue meta ⟨k⟩) := by
  rw [mkMatch]
  by_cases h1 : labelsDot <+: k
  · simp only [if_pos h1]
    simp [phText, phValue, h1]
  · by_cases h2 : annotationsDot <+: k
    · simp only [if_neg h1, if_pos h2]
      simp [phText, phValue, h1, h2,
        show strLit "annotations" ≠ strLit "labels" from by decide]
    · simp only [if_neg h1, if_neg h2]
      simp [phText, phValue, h1, h2,
        show ¬ (([] : Str) = strLit "labels") from by decide,
        show ¬ (([] : Str) = strLit "annotations") from by decide]

/-- The pointwise update a single replacement pass performs on the
rendering function. -/
def updG (meta : PvcMetadata) (g : Ph → Str) (q : Ph) : Ph → Str :=
  fun p => if g p = phText q then phValue meta q else g p

/-- The rendering function after the fold has processed the placeholder
list `ps`. -/
def gAfter (meta : PvcMetadata) : (Ph → Str) → List Ph → Ph → Str
  | g, [] => g
  | g, q :: l => gAfter meta (updG meta g q) l

theorem dollar_mem_phText (q : Ph) : '$' ∈ phText q := by
  rw [phText_cons q]
  exact List.mem_cons_self '$' (phBody q)

theorem fold_replace (meta : PvcMetadata) :
    ∀ (ps : List Ph) (g : Ph → Str) (c0 : Str) (rest : List (Ph × Str)),
      '$' ∉ c0 →
      (∀ pc ∈ rest, goodKey pc.1.key) →
      (∀ pc ∈ rest, '$' ∉ pc.2) →
      (∀ pc ∈ rest, '$' ∉ phValue meta pc.1) →
      (∀ p ∈ ps, goodKey p.key) →
      (∀ p ∈ ps, '$' ∉ phValue meta p) →
      (∀ pc ∈ rest, g pc.1 = phText pc.1 ∨ g pc.1 = phValue meta pc.1) →
      List.foldl (fun acc m =>
          if m.r2 = strLit "labels" then stringsReplaceAll acc m.r0 (lookupD meta.labels m.r3)
          else if m.r2 = strLit "annotations" then stringsReplaceAll acc m.r0 (lookupD meta.annotations m.r3)
          else stringsReplaceAll acc m.r0 (lookupD meta.data m.r1))
        (c0 ++ assembleTail g rest) (ps.map (fun p => mkMatch p.key))
      = c0 ++ assembleTail (gAfter meta g ps) rest := by
  intro ps
  induction ps with
  | nil => intro g c0 rest _ _ _ _ _ _ _; rfl
  | cons q l ih =>
    intro g c0 rest hc0 hk hch hvr hkp hvp hg
    rw [List.map_cons, List.foldl_cons, stringParser_step meta _ q.key]
    have hq : (⟨q.key⟩ : Ph) = q := rfl
    rw [hq]
    rw [stringsReplaceAll_skip_chunk_ph q _ c0 _ hc0]
    rw [replaceAll_assembleTail q (phValue meta q) (hkp q (by simp)) rest g hk hch
      (fun pc hpc => (hg pc hpc).elim Or.inl (fun h => Or.inr (h ▸ hvr pc hpc)))]
    rw [show (fun p => if g p = phText q then phValue meta q else g p) = updG meta g q from rfl]
    rw [ih (updG meta g q) c0 rest hc0 hk hch hvr
      (fun p hp => hkp p (List.mem_cons_of_mem q hp))
      (fun p hp => hvp p (List.mem_cons_of_mem q hp))
      (fun pc hpc => by
        rw [updG]
        by_cases hupd : g pc.1 = phText q
        · rw [if_pos hupd]
          rcases hg pc hpc with h | h
          · have hpq : pc.1 = q := phText_inj (h ▸ hupd)
            rw [hpq]
            exact Or.inr rfl
          · exfalso
            exact hvr pc hpc (h ▸ hupd ▸ dollar_mem_phText q)
        · rw [if_neg hupd]
          exact hg pc hpc)]
    rfl

theorem gAfter_final (meta : PvcMetadata) :
    ∀ (ps : List Ph) (g : Ph → Str) (p : Ph),
      (g p = phText p ∨ g p = phValue meta p) → '$' ∉ phValue meta p →
      (p ∈ ps ∨ g p = phValue meta p) →
      gAfter meta g ps p = phValue meta p := by
  intro ps
  induction ps with
  | nil =>
    intro g p hd _ hm
    rcases hm with hmem | hval
    · exact absurd hmem (by simp)
    · exact hval
  | cons q l ih =>
    intro g p hd hv hm
    show gAfter meta (updG meta g q) l p = phValue meta p
    by_cases hupd : g p = phText q
    · have hval : updG meta g q p = phValue meta q := by rw [updG, if_pos hupd]
      rcases hd with h | h
      · have hpq : p = q := phText_inj (h ▸ hupd)
        subst hpq
        exact ih (updG meta g p) p (Or.inr hval) hv (Or.inr hval)
      · exfalso
        exact hv (h ▸ hupd ▸ dollar_mem_phText q)
    · have hkeep : updG meta g q p = g p := by rw [updG, if_neg hupd]
      apply ih (updG meta g q) p (hkeep ▸ hd) hv
      rcases hm with hmem | hval
      · rcases List.mem_cons.mp hmem with hpq | hpl
        · subst hpq
          rcases hd with h | h
          · exact absurd h hupd
          · exact Or.inr (hkeep ▸ h)
        · exact Or.inl hpl
      · exact Or.inr (hkeep ▸ hval)

theorem assembleTail_congr (g g' : Ph → Str) :
    ∀ rest : List (Ph × Str), (∀ pc ∈ rest, g pc.1 = g' pc.1) →
      assembleTail g rest = assembleTail g' rest := by
  intro rest
  induction rest with
  | nil => intro _; rfl
  | cons pc rest ih =>
    intro h
    show g pc.1 ++ (pc.2 ++ assembleTail g rest) = g' pc.1 ++ (pc.2 ++ assembleTail g' rest)
    rw [h pc (by simp), ih (fun x hx => h x (List.mem_cons_of_mem pc hx))]

/-- C5 (amended).  For every template assembled from dollar-free literal
chunks and placeholders with well-formed keys (no `\x7d`, newline or `$`),
and metadata whose relevant values are dollar-free, `stringParser`
substitutes every occurrence of every recognized placeholder with its
looked-up value: `labels.<key>` reads the label map, `annotations.<key>`
the annotation map, and a plain field the metadata map, a missing key
yielding the empty string.  (Fully universally — for arbitrary values —
the claim fails: a substituted value containing placeholder text is
rewritten again by later replacement passes; see the counterexample.) -/
theorem stringParser_substitutes (meta : PvcMetadata) (c0 : Str) (rest : List (Ph × Str))
    (hc0 : '$' ∉ c0)
    (hkeys : ∀ pc ∈ rest, goodKey pc.1.key)
    (hchunks : ∀ pc ∈ rest, '$' ∉ pc.2)
    (hvals : ∀ pc ∈ rest, '$' ∉ phValue meta pc.1) :
    stringParser meta (c0 ++ assembleTail phText rest)
      = c0 ++ assembleTail (phValue meta) rest := by
  rw [stringParser, findMatches_assembled rest c0 hc0 hkeys hchunks]
  rw [show rest.map (fun pc => mkMatch pc.1.key)
      = (rest.map (fun pc => pc.1)).map (fun p => mkMatch p.key) from by
    rw [List.map_map]
    rfl]
  rw [fold_replace meta (rest.map (fun pc => pc.1)) phText c0 rest hc0 hkeys hchunks hvals
    (fun p hp => by
      obtain ⟨pc, hpc, hpeq⟩ := List.mem_map.mp hp
      exact hpeq ▸ hkeys pc hpc)
    (fun p hp => by
      obtain ⟨pc, hpc, hpeq⟩ := List.mem_map.mp hp
      exact hpeq ▸ hvals pc hpc)
    (fun pc _ => Or.inl rfl)]
  congr 1
  apply assembleTail_congr
  intro pc hpc
  exact gAfter_final meta (rest.map (fun pc => pc.1)) phText pc.1 (Or.inl rfl)
    (hvals pc hpc) (Or.inl (List.mem_map.mpr ⟨pc, hpc, rfl⟩))

/-- Counterexample to C5 as stated (for every template and metadata):
with labels `a ↦ "$\x7b.PVC.labels.b\x7d"` and `b ↦ "vb"`, the template
`"$\x7b.PVC.labels.a\x7d $\x7b.PVC.labels.b\x7d"` renders to `"vb vb"`:
the `labels.a` occurrence does not end up as the label value of `a`
(which is the text `$\x7b.PVC.labels.b\x7d`), because the value
substituted for `a` is rewritten again by the later replacement pass. -/
theorem stringParser_rewrite_counterexample :
    stringParser ⟨[], [(strLit "a", strLit "$\x7b.PVC.labels.b\x7d"), (strLit "b", strLit "vb")], []⟩
        (strLit "$\x7b.PVC.labels.a\x7d $\x7b.PVC.labels.b\x7d")
      = strLit "vb vb"
      ∧ lookupD [(strLit "a", strLit "$\x7b.PVC.labels.b\x7d"), (strLit "b", strLit "vb")] (strLit "a")
        = strLit "$\x7b.PVC.labels.b\x7d"
      ∧ strLit "vb vb" ≠ strLit "$\x7b.PVC.labels.b\x7d vb" := by decide

/-- Witness for C5: a template with a label, a plain field, a missing
annotation and an unknown plain field; the two misses substitute to the
empty string. -/
theorem stringParser_substitutes_witness :
    stringParser ⟨[(strLit "name", strLit "claim1")], [(strLit "team", strLit "infra")], []⟩
        (strLit "p-" ++ assembleTail phText
          [(⟨strLit "labels.team"⟩, strLit "/"), (⟨strLit "name"⟩, strLit "-"),
            (⟨strLit "annotations.x"⟩, strLit "-"), (⟨strLit "unknown"⟩, [])])
      = strLit "p-" ++ assembleTail
          (phValue ⟨[(strLit "name", strLit "claim1")], [(strLit "team", strLit "infra")], []⟩)
          [(⟨strLit "labels.team"⟩, strLit "/"), (⟨strLit "name"⟩, strLit "-"),
            (⟨strLit "annotations.x"⟩, strLit "-"), (⟨strLit "unknown"⟩, [])]
      ∧ strLit "p-" ++ assembleTail
          (phValue ⟨[(strLit "name", strLit "claim1")], [(strLit "team", strLit "infra")], []⟩)
          [(⟨strLit "labels.team"⟩, strLit "/"), (⟨strLit "name"⟩, strLit "-"),
            (⟨strLit "annotations.x"⟩, strLit "-"), (⟨strLit "unknown"⟩, [])]
        = strLit "p-infra/claim1--" :=
  ⟨stringParser_substitutes ⟨[(strLit "name", strLit "claim1")], [(strLit "team", strLit "infra")], []⟩
      (strLit "p-")
      [(⟨strLit "labels.team"⟩, strLit "/"), (⟨strLit "name"⟩, strLit "-"),
        (⟨strLit "annotations.x"⟩, strLit "-"), (⟨strLit "unknown"⟩, [])]
      (by decide) (by decide) (by decide) (by decide),
    by decide⟩
